import Mathlib

/-!
# SHA-1 (`sha1.go`): a shallow embedding and its verification

Bytes and machine words are natural numbers; `uint32` and `uint64` arithmetic
carries an explicit `% 2^32` / `% 2^64`.  A run-time panic of the Go code is the
result `none`.  Diagnostic printing (`fmt.Println`) has no effect on the state
or on the results and is left out.
-/

namespace sha1

/-! ## Constants -/

/-- The size of a SHA1 checksum in bytes. -/
def Size : Nat := 20

/-- The blocksize of SHA1 in bytes. -/
def BlockSize : Nat := 64

def chunk : Nat := 64
def init0 : Nat := 0x67452301
def init1 : Nat := 0xEFCDAB89
def init2 : Nat := 0x98BADCFE
def init3 : Nat := 0x10325476
def init4 : Nat := 0xC3D2E1F0

/-! ## Data model -/

/-- The Go type `[5]uint32`: the five words of the accumulator. -/
structure Words5 where
  h0 : Nat
  h1 : Nat
  h2 : Nat
  h3 : Nat
  h4 : Nat
deriving DecidableEq, Repr

/-- The words of an accumulator in index order. -/
def Words5.toList (w : Words5) : List Nat := [w.h0, w.h1, w.h2, w.h3, w.h4]

/-- The Go type `[chunk]byte`: a byte array of exactly `chunk` cells. -/
abbrev Buf : Type := { l : List Nat // l.length = chunk }

/-- The type `digest` represents the partial evaluation of a checksum. -/
structure digest where
  h : Words5
  x : Buf
  nx : Int
  len : Nat
deriving DecidableEq

/-- The all-zero array, the value of a fresh `var tmp [64]byte`. -/
def zeroBuf : Buf := ⟨List.replicate chunk 0, by simp⟩

/-- The zero value of `digest`, as made by `var d digest` or `new(digest)`. -/
def digest.zero : digest := { h := ⟨0, 0, 0, 0, 0⟩, x := zeroBuf, nx := 0, len := 0 }

/-! ## The block transform -/

/-- Modelled from the spec: `rotateLeft32` on a 32-bit word (part of the block
transform, which is not among the sources). -/
def rotateLeft32 (v : Nat) (k : Nat) : Nat :=
  ((v <<< k) % 2 ^ 32) ||| (v >>> (32 - k))

/-- Modelled from the spec: the big-endian 32-bit word number `i` of a chunk
(part of the block transform, which is not among the sources). -/
def beWord (c : List Nat) (i : Nat) : Nat :=
  (c.getD (4 * i) 0 <<< 24) ||| (c.getD (4 * i + 1) 0 <<< 16) |||
    (c.getD (4 * i + 2) 0 <<< 8) ||| c.getD (4 * i + 3) 0

/-- Modelled from the spec: the message schedule grown by `n` words, each new
word `w[i]` being `rotateLeft32 (w[i-3] ^ w[i-8] ^ w[i-14] ^ w[i-16]) 1` (part of
the block transform, which is not among the sources). -/
def expand : Nat → List Nat → List Nat
  | 0, w => w
  | n + 1, w =>
    let i := w.length
    expand n (w ++ [rotateLeft32
      (w.getD (i - 3) 0 ^^^ w.getD (i - 8) 0 ^^^ w.getD (i - 14) 0 ^^^ w.getD (i - 16) 0) 1])

/-- Modelled from the spec: the 80-word schedule of a chunk, 16 big-endian words
then 64 expanded ones (part of the block transform, which is not among the
sources). -/
def schedule (c : List Nat) : List Nat :=
  expand 64 ((List.range 16).map (beWord c))

/-- Modelled from the spec: the standard SHA-1 round function of round `i`
(part of the block transform, which is not among the sources). -/
def roundF (i b c d : Nat) : Nat :=
  if i < 20 then (b &&& c) ||| ((b ^^^ 0xFFFFFFFF) &&& d)
  else if i < 40 then b ^^^ c ^^^ d
  else if i < 60 then ((b ||| c) &&& d) ||| (b &&& c)
  else b ^^^ c ^^^ d

/-- Modelled from the spec: the round constant of round `i` (part of the block
transform, which is not among the sources). -/
def roundK (i : Nat) : Nat :=
  if i < 20 then 0x5A827999
  else if i < 40 then 0x6ED9EBA1
  else if i < 60 then 0x8F1BBCDC
  else 0xCA62C1D6

/-- Modelled from the spec: one round over the working registers
`(a, b, c, d, e)` (part of the block transform, which is not among the
sources). -/
def round (w : List Nat) (r : Words5) (i : Nat) : Words5 :=
  let temp := (rotateLeft32 r.h0 5 + roundF i r.h1 r.h2 r.h3 + r.h4 + roundK i + w.getD i 0) % 2 ^ 32
  ⟨temp, r.h0, rotateLeft32 r.h1 30, r.h2, r.h3⟩

/-- Modelled from the spec: the block transform on one 64-byte chunk (the
function `block` of `sha1block.go` is not among the sources): the 80-word
schedule, 80 rounds from the current accumulator, and the registers added back
into the accumulator modulo `2^32`. -/
def blockChunk (h : Words5) (c : List Nat) : Words5 :=
  let r := (List.range 80).foldl (round (schedule c)) h
  ⟨(h.h0 + r.h0) % 2 ^ 32, (h.h1 + r.h1) % 2 ^ 32, (h.h2 + r.h2) % 2 ^ 32,
    (h.h3 + r.h3) % 2 ^ 32, (h.h4 + r.h4) % 2 ^ 32⟩

/-- Modelled from the spec: the block transform over the first `n` 64-byte
chunks of `p`, one chunk after the other (the loop of `block`, which is not
among the sources). -/
def blockN : Nat → Words5 → List Nat → Words5
  | 0, h, _ => h
  | n + 1, h, p => blockN n (blockChunk h (p.take chunk)) (p.drop chunk)

/-- Modelled from the spec: `block(d, p)` (not among the sources) runs the
block transform over each 64-byte chunk of `p` in turn and stores the result in
`d.h`; nothing else of `d` changes. -/
def block (d : digest) (p : List Nat) : digest :=
  { d with h := blockN (p.length / chunk) d.h p }

/-! ## The operations of `sha1.go` -/

/-- The method `Reset`: the five initial constants, an empty buffer count and a
zero length; the array `x` is not touched. -/
def digest.Reset (d : digest) : digest :=
  { d with h := ⟨init0, init1, init2, init3, init4⟩, nx := 0, len := 0 }

/-- The method `setH`: copies the five words of `h` into `d.h`. -/
def digest.setH (d : digest) (h : Words5) : digest :=
  { d with h := ⟨h.h0, h.h1, h.h2, h.h3, h.h4⟩ }

/-- The function `New` returns a new hash computing the SHA1 checksum. -/
def New : digest := digest.zero.Reset

/-- Go's `a &^ b` (bit clear) on natural numbers. -/
def andNot (a b : Nat) : Nat := a ^^^ (a &&& b)

/-- Go's `copy(x[off:], p)` for the array `x` and `off ≤ chunk`: the array
afterwards and the number of bytes copied, the smaller of the two lengths. -/
def copyAt (x : Buf) (off : Nat) (p : List Nat) : Buf × Nat :=
  let n := min (chunk - off) p.length
  (⟨x.val.take off ++ p.take n ++ x.val.drop (off + n), by
      have hx := x.property
      simp only [List.length_append, List.length_take, List.length_drop, hx]
      omega⟩, n)

/-- What `Write` hands back: the receiver afterwards and the two results `nn`
and `err` (`none` is the nil error). -/
structure WriteResult where
  d : digest
  nn : Int
  err : Option String
deriving DecidableEq

/-- The second and third `if` of `Write`: whole chunks go to `block` straight
from `p`, a non-empty rest is copied to the start of `x`. -/
def writeRest (d : digest) (p : List Nat) : digest :=
  let n := andNot p.length (chunk - 1)
  let d1 := if p.length ≥ chunk then block d (p.take n) else d
  let p1 := if p.length ≥ chunk then p.drop n else p
  if p1.length > 0 then
    { d1 with x := (copyAt d1.x 0 p1).1, nx := ((copyAt d1.x 0 p1).2 : Nat) }
  else d1

/-- The method `Write`.  The result is `none` when the slice expression
`d.x[d.nx:]` panics, which is when `d.nx > chunk`. -/
def digest.Write (d : digest) (p : List Nat) : Option WriteResult :=
  let nn : Int := p.length
  let d0 := { d with len := (d.len + p.length) % 2 ^ 64 }
  if d0.nx > 0 then
    if d0.nx > (chunk : Int) then none
    else
      let n := (copyAt d0.x d0.nx.toNat p).2
      let d1 := { d0 with x := (copyAt d0.x d0.nx.toNat p).1, nx := d0.nx + (n : Nat) }
      let d2 := if d1.nx = (chunk : Int) then { block d1 d1.x.val with nx := 0 } else d1
      some ⟨writeRest d2 (p.drop n), nn, none⟩
  else
    some ⟨writeRest d0 p, nn, none⟩

/-- The array `tmp` of `checkSum` after `tmp[0] = 0x80`. -/
def tmp0 : List Nat := (List.replicate 64 0).set 0 0x80

/-- The padding `checkSum` writes first: `tmp[0 : 56-len%64]` when
`len%64 < 56`, else `tmp[0 : 64+56-len%64]`. -/
def padding (len : Nat) : List Nat :=
  if len % 64 < 56 then tmp0.take (56 - len % 64) else tmp0.take (64 + 56 - len % 64)

/-- The array `tmp` after the loop that stores the length in bits, `len <<= 3`
in `uint64`, big-endian in its first eight cells. -/
def tmpLen (len : Nat) : List Nat :=
  let bits := (len <<< 3) % 2 ^ 64
  (List.range 8).foldl (fun t i => t.set i ((bits >>> (56 - 8 * i)) % 256)) tmp0

/-- The slice `tmp[0:8]` that `checkSum` writes last. -/
def lenBytes (len : Nat) : List Nat := (tmpLen len).take 8

/-- The 20 bytes of `checkSum`: each word of `h` as four big-endian bytes. -/
def digestBytes (h : Words5) : List Nat :=
  h.toList.flatMap fun s => [(s >>> 24) % 256, (s >>> 16) % 256, (s >>> 8) % 256, s % 256]

/-- The method `checkSum`: the receiver afterwards and the checksum.  The result
is `none` when a `Write` panics or when `d.nx != 0` after the two writes. -/
def digest.checkSum (d : digest) : Option (digest × List Nat) :=
  let len := d.len
  match d.Write (padding len) with
  | none => none
  | some r1 =>
    match r1.d.Write (lenBytes len) with
    | none => none
    | some r2 =>
      if r2.d.nx ≠ 0 then none
      else some (r2.d, digestBytes r2.d.h)

/-- The method `Sum` of `digest`: `checkSum` runs on a copy of the receiver and
its bytes are appended to `b`.  The receiver afterwards is returned too. -/
def digest.Sum (d0 : digest) (b : List Nat) : Option (digest × List Nat) :=
  let d := d0
  match d.checkSum with
  | none => none
  | some r => some (d0, b ++ r.2)

/-- The function `Sum` returns the SHA1 checksum of the data. -/
def Sum (data : List Nat) : Option (List Nat) :=
  let d := digest.zero.Reset
  match d.Write data with
  | none => none
  | some r =>
    match r.d.checkSum with
    | none => none
    | some c => some c.2

/-- The function `SumWithInitialState` returns the SHA1 checksum of the data
from the initial state `h` and a length of 64. -/
def SumWithInitialState (data : List Nat) (h : Words5) : Option (List Nat) :=
  let d := (digest.zero.Reset.setH h)
  let d := { d with len := 64 }
  match d.Write data with
  | none => none
  | some r =>
    match r.d.checkSum with
    | none => none
    | some c => some c.2

/-- The method `Write` called with each slice of `ps` in turn. -/
def writes : digest → List (List Nat) → Option digest
  | d, [] => some d
  | d, p :: ps =>
    match d.Write p with
    | none => none
    | some r => writes r.d ps

/-- The run `Reset`, `Write(d1)`, `Write(d2)`, `checkSum` from the state `d`:
the checksum it returns. -/
def incremental (d : digest) (d1 d2 : List Nat) : Option (List Nat) :=
  match d.Reset.Write d1 with
  | none => none
  | some r1 =>
    match r1.d.Write d2 with
    | none => none
    | some r2 =>
      match r2.d.checkSum with
      | none => none
      | some c => some c.2

/-- The run `Reset`, `Write(d1)`, `x = Sum(nil)`, `Write(d2)`, `y = Sum(nil)`
from the state `d`: the pair `(x, y)`. -/
def sumTwice (d : digest) (d1 d2 : List Nat) : Option (List Nat × List Nat) :=
  match d.Reset.Write d1 with
  | none => none
  | some r1 =>
    match r1.d.Sum [] with
    | none => none
    | some s1 =>
      match s1.1.Write d2 with
      | none => none
      | some r2 =>
        match r2.d.Sum [] with
        | none => none
        | some s2 => some (s1.2, s2.2)

/-- A value of the type `digest` whose count `nx` is past the end of `x`; `Reset`
brings it back to a fresh state. -/
def stateNx65 : digest := { h := ⟨0, 0, 0, 0, 0⟩, x := zeroBuf, nx := 65, len := 0 }

/-- A state with 60 buffered bytes, as left by `Reset` and a write of 60 zero
bytes. -/
def stateNx60 : digest :=
  { h := ⟨init0, init1, init2, init3, init4⟩, x := zeroBuf, nx := 60, len := 60 }

/-- The state `stateNx60` with other bytes in the four cells of `x` past the
60 valid ones. -/
def stateNx60Stale : digest :=
  { h := ⟨init0, init1, init2, init3, init4⟩,
    x := ⟨List.replicate 60 0 ++ [9, 9, 9, 9], by decide⟩, nx := 60, len := 60 }

/-! ## Reference definitions, after the words of the specification -/

/-- The five fixed SHA-1 initialization constants. -/
def initH : Words5 := ⟨0x67452301, 0xEFCDAB89, 0x98BADCFE, 0x10325476, 0xC3D2E1F0⟩

/-- The 8-byte big-endian encoding of `n` as a 64-bit unsigned number. -/
def be64 (n : Nat) : List Nat :=
  (List.range 8).map fun i => n / 256 ^ (7 - i) % 256

/-- The 4-byte big-endian encoding of a 32-bit word. -/
def be32 (w : Nat) : List Nat :=
  (List.range 4).map fun j => w / 256 ^ (3 - j) % 256

/-- The five words serialized big-endian into 20 bytes. -/
def serialize (h : Words5) : List Nat :=
  be32 h.h0 ++ be32 h.h1 ++ be32 h.h2 ++ be32 h.h3 ++ be32 h.h4

/-- The first `n` consecutive 64-byte chunks of a message. -/
def chunksN : Nat → List Nat → List (List Nat)
  | 0, _ => []
  | n + 1, m => m.take 64 :: chunksN n (m.drop 64)

/-- The consecutive 64-byte chunks of a message. -/
def chunks (m : List Nat) : List (List Nat) := chunksN (m.length / 64) m

/-- The padded message of the Merkle-Damgard construction with `k` zero bytes:
the data, the byte `0x80`, `k` zero bytes and the length in bits in 8 bytes. -/
def padded (data : List Nat) (k : Nat) : List Nat :=
  data ++ [0x80] ++ List.replicate k 0 ++ be64 (8 * data.length)

/-- The Merkle-Damgard reference digest with `k` zero bytes of padding: the
block transform folded over the chunks of the padded message from the initial
constants, serialized. -/
def refDigest (data : List Nat) (k : Nat) : List Nat :=
  serialize ((chunks (padded data k)).foldl blockChunk initH)

/-- The number a byte sequence encodes big-endian. -/
def decodeBE (bs : List Nat) : Nat := bs.foldl (fun a b => a * 256 + b) 0

/-- The five 32-bit words that 20 bytes encode big-endian, four bytes a word. -/
def wordsOfBytes (bs : List Nat) : Words5 :=
  ⟨decodeBE (bs.take 4), decodeBE ((bs.drop 4).take 4), decodeBE ((bs.drop 8).take 4),
    decodeBE ((bs.drop 12).take 4), decodeBE ((bs.drop 16).take 4)⟩

/-- Every word of the accumulator is a `uint32`. -/
def Words5.valid (w : Words5) : Prop :=
  w.h0 < 2 ^ 32 ∧ w.h1 < 2 ^ 32 ∧ w.h2 < 2 ^ 32 ∧ w.h3 < 2 ^ 32 ∧ w.h4 < 2 ^ 32

instance (w : Words5) : Decidable w.valid := by
  unfold Words5.valid; infer_instance

/-- A state one byte short of a full buffer whose length is the largest
`uint64`. -/
def stateWrap : digest :=
  { h := ⟨init0, init1, init2, init3, init4⟩, x := zeroBuf, nx := 63, len := 2 ^ 64 - 1 }

/-- What `checkSum` returns on the fresh state: the receiver afterwards and the
checksum of the empty message. -/
def emptyFinal : digest × List Nat :=
  ({ h := ⟨0xda39a3ee, 0x5e6b4b0d, 0x3255bfef, 0x95601890, 0xafd80709⟩,
     x := ⟨0x80 :: List.replicate 63 0, by decide⟩, nx := 0, len := 64 },
   [0xda, 0x39, 0xa3, 0xee, 0x5e, 0x6b, 0x4b, 0x0d, 0x32, 0x55,
    0xbf, 0xef, 0x95, 0x60, 0x18, 0x90, 0xaf, 0xd8, 0x07, 0x09])

/-! ## The abstraction used in the proofs -/

/-- The state `d` stands for the byte stream `D` absorbed from the accumulator
`h0`: `nx` is the length of the unprocessed tail, `h` is the block transform
over the whole chunks of `D`, and the tail is the valid prefix of `x`. -/
def Rep (h0 : Words5) (D : List Nat) (d : digest) : Prop :=
  d.nx = ((D.length % 64 : Nat) : Int) ∧
  d.h = blockN (D.length / 64) h0 D ∧
  d.x.val.take (D.length % 64) = D.drop (64 * (D.length / 64))

/-- Two states agree on everything `Write` and `checkSum` read: `h`, `nx`, `len`
and the valid prefix `x[0:nx]`. -/
def ViewEq (a b : digest) : Prop :=
  a.h = b.h ∧ a.nx = b.nx ∧ a.len = b.len ∧
  a.x.val.take a.nx.toNat = b.x.val.take b.nx.toNat

/-! ## Lemmas on the block transform and on `Write` -/

theorem andNot_chunk (n : Nat) : andNot n (chunk - 1) = 64 * (n / 64) := by
  have h1 : andNot n (chunk - 1) = n ^^^ (n % 2 ^ 6) := by
    unfold andNot chunk
    rw [show (64 - 1 : Nat) = 2 ^ 6 - 1 from rfl, Nat.and_pow_two_sub_one_eq_mod]
  have h2 : 64 * (n / 64) = (n >>> 6) <<< 6 := by
    rw [Nat.shiftLeft_eq, Nat.shiftRight_eq_div_pow]; norm_num; omega
  rw [h1, h2]
  apply Nat.eq_of_testBit_eq
  intro i
  simp only [Nat.testBit_xor, Nat.testBit_mod_two_pow, Nat.testBit_shiftLeft, Nat.testBit_shiftRight]
  by_cases hi : i < 6
  · have : ¬ (i ≥ 6) := by omega
    simp [hi, this]
  · have h6 : i ≥ 6 := by omega
    have : 6 + (i - 6) = i := by omega
    simp [hi, h6, this]

theorem blockN_append (m : Nat) : ∀ (n : Nat) (h : Words5) (a b : List Nat),
    a.length = chunk * m → blockN (m + n) h (a ++ b) = blockN n (blockN m h a) b := by
  induction m with
  | zero =>
    intro n h a b ha
    have : a = [] := List.length_eq_zero.mp (by simpa using ha)
    subst this
    simp [blockN]
  | succ m ih =>
    intro n h a b ha
    have hlen : chunk ≤ a.length := by rw [ha]; exact Nat.le_mul_of_pos_right _ (Nat.succ_pos m)
    have e : m + 1 + n = (m + n) + 1 := by omega
    rw [e]
    simp only [blockN]
    rw [List.take_append_of_le_length hlen, List.drop_append_of_le_length hlen]
    apply ih
    rw [List.length_drop, ha, Nat.mul_succ]; omega

theorem blockN_append_right (n : Nat) : ∀ (h : Words5) (a b : List Nat),
    chunk * n ≤ a.length → blockN n h (a ++ b) = blockN n h a := by
  induction n with
  | zero => intro h a b _; simp [blockN]
  | succ n ih =>
    intro h a b ha
    have hlen : chunk ≤ a.length := by
      have : chunk * (n + 1) = chunk * n + chunk := Nat.mul_succ _ _
      omega
    simp only [blockN]
    rw [List.take_append_of_le_length hlen, List.drop_append_of_le_length hlen]
    apply ih
    rw [List.length_drop, Nat.mul_succ] at *; omega

theorem blockN_take (n : Nat) (h : Words5) (p : List Nat) (k : Nat) (hk : chunk * n ≤ k) :
    blockN n h (p.take k) = blockN n h p := by
  by_cases hp : k ≤ p.length
  · conv_rhs => rw [← List.take_append_drop k p]
    rw [blockN_append_right]
    rw [List.length_take]; omega
  · rw [List.take_of_length_le (by omega)]

theorem block_h (d : digest) (p : List Nat) : (block d p).h = blockN (p.length / chunk) d.h p := rfl
theorem block_x (d : digest) (p : List Nat) : (block d p).x = d.x := rfl
theorem block_nx (d : digest) (p : List Nat) : (block d p).nx = d.nx := rfl
theorem block_len (d : digest) (p : List Nat) : (block d p).len = d.len := rfl

theorem copyAt_snd (x : Buf) (off : Nat) (p : List Nat) :
    (copyAt x off p).2 = min (chunk - off) p.length := rfl

theorem copyAt_fst (x : Buf) (off : Nat) (p : List Nat) :
    (copyAt x off p).1.val =
      x.val.take off ++ p.take (min (chunk - off) p.length) ++
        x.val.drop (off + min (chunk - off) p.length) := rfl

theorem writeRest_h (d : digest) (p : List Nat) :
    (writeRest d p).h = blockN (p.length / 64) d.h p := by
  unfold writeRest
  rw [andNot_chunk]
  by_cases hp : p.length ≥ chunk
  · have hq : (List.take (64 * (p.length / 64)) p).length / chunk = p.length / 64 := by
      rw [List.length_take]; unfold chunk; omega
    simp only [hp, if_true]
    split <;> simp only [block_h, hq] <;> exact blockN_take _ _ _ _ (le_refl _)
  · have hq : p.length / 64 = 0 := by unfold chunk at hp; omega
    simp only [hp, if_false, hq]
    split <;> simp [blockN]

theorem writeRest_len (d : digest) (p : List Nat) : (writeRest d p).len = d.len := by
  unfold writeRest
  by_cases hp : p.length ≥ chunk <;> simp only [hp, if_true, if_false] <;> split <;> rfl

theorem writeRest_rem_zero (d : digest) (p : List Nat) (hp : p.length % 64 = 0) :
    (writeRest d p).nx = d.nx ∧ (writeRest d p).x = d.x := by
  unfold writeRest
  rw [andNot_chunk]
  by_cases hc : p.length ≥ chunk
  · have h0 : ¬ ((List.drop (64 * (p.length / 64)) p).length > 0) := by
      rw [List.length_drop]; omega
    simp only [hc, if_true, h0, if_false]
    exact ⟨rfl, rfl⟩
  · have h0 : ¬ (p.length > 0) := by unfold chunk at hc; omega
    simp only [hc, if_false, h0]
    simp

theorem writeRest_rem_pos (d : digest) (p : List Nat) (hp : p.length % 64 ≠ 0) :
    (writeRest d p).nx = ((p.length % 64 : Nat) : Int) ∧
    (writeRest d p).x.val = p.drop (64 * (p.length / 64)) ++ d.x.val.drop (p.length % 64) := by
  have hx := d.x.property
  unfold writeRest
  rw [andNot_chunk]
  by_cases hc : p.length ≥ chunk
  · have h0 : (List.drop (64 * (p.length / 64)) p).length > 0 := by
      rw [List.length_drop]; omega
    have hl : (List.drop (64 * (p.length / 64)) p).length = p.length % 64 := by
      rw [List.length_drop]; omega
    simp only [hc, if_true, h0]
    refine ⟨?_, ?_⟩
    · simp only [copyAt_snd, hl]; congr 1; unfold chunk; omega
    · simp only [copyAt_fst, hl, block_x]
      have hm : min (chunk - 0) (p.length % 64) = p.length % 64 := by unfold chunk; omega
      rw [hm, ← hl, List.take_length]
      simp
  · have h0 : p.length > 0 := by omega
    have hq : p.length / 64 = 0 := by unfold chunk at hc; omega
    have hl : p.length % 64 = p.length := by unfold chunk at hc; omega
    simp only [hc, if_false, h0, if_true]
    refine ⟨?_, ?_⟩
    · simp only [copyAt_snd, hl]; congr 1; unfold chunk at *; omega
    · simp only [copyAt_fst, hl, hq]
      have hm : min (chunk - 0) p.length = p.length := by unfold chunk at *; omega
      rw [hm, List.take_length]
      simp

theorem Write_of_nx_nonpos (d : digest) (p : List Nat) (hk : d.nx ≤ 0) :
    d.Write p = some ⟨writeRest { d with len := (d.len + p.length) % 2 ^ 64 } p, p.length, none⟩ := by
  unfold digest.Write
  have : ¬ (d.nx > 0) := by omega
  simp only [this, if_false]

theorem Write_short (d : digest) (p : List Nat) (k : Nat) (hk : d.nx = (k : Int)) (h0 : 0 < k)
    (hlt : k + p.length < 64) :
    d.Write p = some ⟨{ d with len := (d.len + p.length) % 2 ^ 64, x := (copyAt d.x k p).1,
                               nx := ((k + p.length : Nat) : Int) }, p.length, none⟩ := by
  unfold digest.Write
  have h1 : d.nx > 0 := by omega
  have h2 : ¬ (d.nx > (chunk : Int)) := by unfold chunk; omega
  have hn : (copyAt d.x k p).2 = p.length := by rw [copyAt_snd]; unfold chunk; omega
  have h3 : ¬ (d.nx + ((p.length : Nat) : Int) = (chunk : Int)) := by unfold chunk; omega
  have htn : d.nx.toNat = k := by omega
  dsimp only
  rw [if_pos h1, if_neg h2, htn, hn, if_neg h3, List.drop_length]
  congr 2
  have hz : ([] : List Nat).length % 64 = 0 := rfl
  have e1 := writeRest_rem_zero { h := d.h, x := (copyAt d.x k p).1, nx := d.nx + ↑p.length, len := (d.len + p.length) % 2 ^ 64 } [] hz
  have e2 := writeRest_h { h := d.h, x := (copyAt d.x k p).1, nx := d.nx + ↑p.length, len := (d.len + p.length) % 2 ^ 64 } []
  have e3 := writeRest_len { h := d.h, x := (copyAt d.x k p).1, nx := d.nx + ↑p.length, len := (d.len + p.length) % 2 ^ 64 } []
  generalize writeRest { h := d.h, x := (copyAt d.x k p).1, nx := d.nx + ↑p.length, len := (d.len + p.length) % 2 ^ 64 } [] = w at e1 e2 e3
  obtain ⟨wh, wx, wnx, wlen⟩ := w
  simp only [blockN, List.length_nil] at e1 e2 e3
  obtain ⟨e1a, e1b⟩ := e1
  subst e1a e1b e2 e3
  simp [hk]

theorem Write_fill (d : digest) (p : List Nat) (k : Nat) (hk : d.nx = (k : Int)) (h0 : 0 < k)
    (hlt : k ≤ 64) (hge : 64 ≤ k + p.length) :
    d.Write p = some ⟨writeRest { h := blockChunk d.h (d.x.val.take k ++ p.take (64 - k)),
                                  x := (copyAt d.x k p).1, nx := 0,
                                  len := (d.len + p.length) % 2 ^ 64 } (p.drop (64 - k)),
                      p.length, none⟩ := by
  unfold digest.Write
  have hx := d.x.property
  have h1 : d.nx > 0 := by omega
  have h2 : ¬ (d.nx > (chunk : Int)) := by unfold chunk; omega
  have hn : (copyAt d.x k p).2 = 64 - k := by rw [copyAt_snd]; unfold chunk; omega
  have h3 : d.nx + ((64 - k : Nat) : Int) = (chunk : Int) := by unfold chunk; omega
  have htn : d.nx.toNat = k := by omega
  have hv : (copyAt d.x k p).1.val = d.x.val.take k ++ p.take (64 - k) := by
    rw [copyAt_fst]
    have hm : min (chunk - k) p.length = 64 - k := by unfold chunk; omega
    rw [hm, List.drop_of_length_le (by rw [hx]; unfold chunk; omega)]
    simp
  have hl : (copyAt d.x k p).1.val.length / chunk = 1 := by
    rw [(copyAt d.x k p).1.property]; exact Nat.div_self (by decide)
  have ht : List.take chunk (copyAt d.x k p).1.val = d.x.val.take k ++ p.take (64 - k) := by
    rw [← hv]
    exact List.take_of_length_le (le_of_eq (copyAt d.x k p).1.property)
  dsimp only
  rw [if_pos h1, if_neg h2, htn, hn, if_pos h3]
  simp only [block, hl, blockN, ht]

theorem writeRest_spec (d : digest) (p : List Nat) (hnx : d.nx = 0) :
    (writeRest d p).nx = ((p.length % 64 : Nat) : Int) ∧
    (writeRest d p).x.val.take (p.length % 64) = p.drop (64 * (p.length / 64)) := by
  by_cases hp : p.length % 64 = 0
  · obtain ⟨e1, _⟩ := writeRest_rem_zero d p hp
    refine ⟨by rw [e1, hnx, hp]; rfl, ?_⟩
    rw [hp, List.take_zero, List.drop_of_length_le (by omega)]
  · obtain ⟨e1, e2⟩ := writeRest_rem_pos d p hp
    refine ⟨e1, ?_⟩
    rw [e2]
    have hl : (List.drop (64 * (p.length / 64)) p).length = p.length % 64 := by
      rw [List.length_drop]; omega
    rw [← hl, List.take_left]

theorem Write_spec (d : digest) (p : List Nat) (k : Nat) (hk : d.nx = (k : Int)) (hlt : k < 64) :
    ∃ r, d.Write p = some r ∧ r.nn = (p.length : Int) ∧ r.err = none ∧
      r.d.len = (d.len + p.length) % 2 ^ 64 ∧
      r.d.nx = (((k + p.length) % 64 : Nat) : Int) ∧
      r.d.h = blockN ((k + p.length) / 64) d.h (d.x.val.take k ++ p) ∧
      r.d.x.val.take ((k + p.length) % 64)
        = (d.x.val.take k ++ p).drop (64 * ((k + p.length) / 64)) := by
  have hx := d.x.property
  rcases Nat.eq_zero_or_pos k with h0 | h0
  · subst h0
    refine ⟨_, Write_of_nx_nonpos d p (by omega), rfl, rfl, ?_, ?_, ?_, ?_⟩
    · rw [writeRest_len]
    · have := (writeRest_spec { d with len := (d.len + p.length) % 2 ^ 64 } p (by simpa using hk)).1
      simpa using this
    · rw [writeRest_h]; simp
    · have := (writeRest_spec { d with len := (d.len + p.length) % 2 ^ 64 } p (by simpa using hk)).2
      simpa using this
  · by_cases hs : k + p.length < 64
    · refine ⟨_, Write_short d p k hk h0 hs, rfl, rfl, rfl, ?_, ?_, ?_⟩
      · show ((k + p.length : Nat) : Int) = _
        rw [Nat.mod_eq_of_lt hs]
      · have : (k + p.length) / 64 = 0 := by omega
        rw [this]; rfl
      · have hq : (k + p.length) / 64 = 0 := by omega
        have hm : (k + p.length) % 64 = k + p.length := Nat.mod_eq_of_lt hs
        rw [hq, hm]
        show List.take (k + p.length) (copyAt d.x k p).1.val = _
        rw [copyAt_fst]
        have hmin : min (chunk - k) p.length = p.length := by unfold chunk; omega
        rw [hmin, List.take_length, Nat.mul_zero, List.drop_zero]
        have hl : (List.take k d.x.val ++ p).length = k + p.length := by
          rw [List.length_append, List.length_take, hx]; unfold chunk; omega
        rw [← hl, List.take_left]
    · have hge : 64 ≤ k + p.length := by omega
      have hal : (List.take k d.x.val ++ List.take (64 - k) p).length = chunk * 1 := by
        rw [List.length_append, List.length_take, List.length_take, hx]; unfold chunk; omega
      have hdl : (List.drop (64 - k) p).length = k + p.length - 64 := by
        rw [List.length_drop]; omega
      have hsplit : List.take k d.x.val ++ p
          = (List.take k d.x.val ++ List.take (64 - k) p) ++ List.drop (64 - k) p := by
        rw [List.append_assoc, List.take_append_drop]
      refine ⟨_, Write_fill d p k hk h0 (by omega) hge, rfl, rfl, ?_, ?_, ?_, ?_⟩
      · rw [writeRest_len]
      · rw [(writeRest_spec _ _ rfl).1, hdl]
        congr 1; omega
      · rw [writeRest_h, hdl, hsplit]
        have hq : (k + p.length) / 64 = 1 + (k + p.length - 64) / 64 := by omega
        rw [hq, blockN_append 1 _ _ _ _ hal]
        have h1 : blockN 1 d.h (List.take k d.x.val ++ List.take (64 - k) p)
            = blockChunk d.h (List.take k d.x.val ++ List.take (64 - k) p) := by
          simp only [blockN]
          rw [List.take_of_length_le (by rw [hal, Nat.mul_one])]
        rw [h1]
      · have hm : (k + p.length) % 64 = (List.drop (64 - k) p).length % 64 := by
          rw [hdl]; omega
        rw [hm, (writeRest_spec _ _ rfl).2, hsplit, hdl]
        have hq : 64 * ((k + p.length) / 64)
            = (List.take k d.x.val ++ List.take (64 - k) p).length + 64 * ((k + p.length - 64) / 64) := by
          rw [hal]; unfold chunk; omega
        rw [hq, List.drop_append]

theorem blockN_resume (h : Words5) (l q : List Nat) :
    blockN ((l.length % 64 + q.length) / 64) (blockN (l.length / 64) h l)
        (l.drop (64 * (l.length / 64)) ++ q)
      = blockN ((l ++ q).length / 64) h (l ++ q) := by
  have hsplit : l ++ q = l.take (64 * (l.length / 64)) ++ (l.drop (64 * (l.length / 64)) ++ q) := by
    rw [← List.append_assoc, List.take_append_drop]
  have hq : (l ++ q).length / 64 = l.length / 64 + (l.length % 64 + q.length) / 64 := by
    rw [List.length_append]; omega
  have hal : (l.take (64 * (l.length / 64))).length = chunk * (l.length / 64) := by
    rw [List.length_take]; unfold chunk; omega
  rw [hq]
  conv_rhs => rw [hsplit]
  rw [blockN_append _ _ _ _ _ hal, blockN_take (l.length / 64) h l (64 * (l.length / 64)) (le_refl _)]

theorem drop_resume (l q : List Nat) :
    (l.drop (64 * (l.length / 64)) ++ q).drop (64 * ((l.length % 64 + q.length) / 64))
      = (l ++ q).drop (64 * ((l ++ q).length / 64)) := by
  have hsplit : l ++ q = l.take (64 * (l.length / 64)) ++ (l.drop (64 * (l.length / 64)) ++ q) := by
    rw [← List.append_assoc, List.take_append_drop]
  have hal : (l.take (64 * (l.length / 64))).length = 64 * (l.length / 64) := by
    rw [List.length_take]; omega
  have hq : 64 * ((l ++ q).length / 64)
      = (l.take (64 * (l.length / 64))).length + 64 * ((l.length % 64 + q.length) / 64) := by
    rw [hal, List.length_append]; omega
  rw [hq]
  conv_rhs => rw [hsplit]
  rw [List.drop_append]

theorem Rep_of_bounds (d : digest) (k : Nat) (hk : d.nx = (k : Int)) (hlt : k < 64) :
    Rep d.h (d.x.val.take k) d := by
  have hx := d.x.property
  have hl : (d.x.val.take k).length = k := by
    rw [List.length_take, hx]; unfold chunk; omega
  refine ⟨?_, ?_, ?_⟩
  · rw [hl, Nat.mod_eq_of_lt hlt]; exact hk
  · rw [hl, Nat.div_eq_of_lt hlt]; rfl
  · rw [hl, Nat.div_eq_of_lt hlt, Nat.mod_eq_of_lt hlt]; simp

theorem Rep_Reset (d : digest) : Rep initH [] d.Reset := by
  refine ⟨rfl, rfl, ?_⟩
  simp

theorem Rep_Write (h0 : Words5) (D : List Nat) (d : digest) (p : List Nat) (hr : Rep h0 D d) :
    ∃ r, d.Write p = some r ∧ r.nn = (p.length : Int) ∧ r.err = none ∧
      r.d.len = (d.len + p.length) % 2 ^ 64 ∧ Rep h0 (D ++ p) r.d := by
  obtain ⟨h1, h2, h3⟩ := hr
  have hlt : D.length % 64 < 64 := Nat.mod_lt _ (by decide)
  obtain ⟨r, e, enn, eerr, elen, enx, eh, ex⟩ := Write_spec d p (D.length % 64) h1 hlt
  refine ⟨r, e, enn, eerr, elen, ?_, ?_, ?_⟩
  · rw [enx, List.length_append]; congr 1; omega
  · rw [eh, h2, h3, blockN_resume]
  · have hm : (D ++ p).length % 64 = (D.length % 64 + p.length) % 64 := by
      rw [List.length_append]; omega
    rw [hm, ex, h3, drop_resume]

theorem Rep_writes (h0 : Words5) (ps : List (List Nat)) : ∀ (D : List Nat) (d : digest),
    Rep h0 D d → ∃ d', writes d ps = some d' ∧ Rep h0 (D ++ ps.flatten) d' ∧
      d'.len % 2 ^ 64 = (d.len + ps.flatten.length) % 2 ^ 64 := by
  induction ps with
  | nil =>
    intro D d hr
    exact ⟨d, rfl, by simpa using hr, by simp⟩
  | cons p ps ih =>
    intro D d hr
    obtain ⟨r, e, _, _, elen, hr1⟩ := Rep_Write h0 D d p hr
    obtain ⟨d', e', hr', elen'⟩ := ih (D ++ p) r.d hr1
    refine ⟨d', ?_, ?_, ?_⟩
    · simp only [writes, e]; exact e'
    · simpa [List.append_assoc] using hr'
    · rw [elen', elen, List.flatten_cons, List.length_append]; omega

theorem tmp0_eq : tmp0 = 0x80 :: List.replicate 63 0 := by decide

theorem padding_eq (len : Nat) :
    padding len = 0x80 :: List.replicate ((119 - len % 64) % 64) 0 := by
  unfold padding
  rw [tmp0_eq]
  by_cases h : len % 64 < 56
  · obtain ⟨j, hj⟩ : ∃ j, 56 - len % 64 = j + 1 := ⟨55 - len % 64, by omega⟩
    have hk : (119 - len % 64) % 64 = j := by omega
    rw [if_pos h, hj, hk, List.take_succ_cons, List.take_replicate]
    congr 2; omega
  · obtain ⟨j, hj⟩ : ∃ j, 64 + 56 - len % 64 = j + 1 := ⟨119 - len % 64, by omega⟩
    have hk : (119 - len % 64) % 64 = j := by omega
    rw [if_neg h, hj, hk, List.take_succ_cons, List.take_replicate]
    congr 2; omega

theorem padding_length (len : Nat) : (padding len).length = (119 - len % 64) % 64 + 1 := by
  rw [padding_eq]; simp

theorem lenBytes_eq (len : Nat) : lenBytes len = be64 (8 * len) := by
  have h : lenBytes len =
      [(((len <<< 3) % 2 ^ 64) >>> 56) % 256, (((len <<< 3) % 2 ^ 64) >>> 48) % 256,
       (((len <<< 3) % 2 ^ 64) >>> 40) % 256, (((len <<< 3) % 2 ^ 64) >>> 32) % 256,
       (((len <<< 3) % 2 ^ 64) >>> 24) % 256, (((len <<< 3) % 2 ^ 64) >>> 16) % 256,
       (((len <<< 3) % 2 ^ 64) >>> 8) % 256, (((len <<< 3) % 2 ^ 64) >>> 0) % 256] := rfl
  rw [h]
  have hb : be64 (8 * len) =
      [8 * len / 256 ^ 7 % 256, 8 * len / 256 ^ 6 % 256, 8 * len / 256 ^ 5 % 256,
       8 * len / 256 ^ 4 % 256, 8 * len / 256 ^ 3 % 256, 8 * len / 256 ^ 2 % 256,
       8 * len / 256 ^ 1 % 256, 8 * len / 256 ^ 0 % 256] := rfl
  rw [hb]
  simp only [Nat.shiftLeft_eq, Nat.shiftRight_eq_div_pow]
  norm_num
  refine ⟨?_, ?_, ?_, ?_, ?_, ?_, ?_, ?_⟩ <;> omega

theorem lenBytes_length (len : Nat) : (lenBytes len).length = 8 := by
  rw [lenBytes_eq]; rfl

theorem be64_mod (n : Nat) : be64 (8 * (n % 2 ^ 64)) = be64 (8 * n) := by
  have hb : ∀ m, be64 m =
      [m / 256 ^ 7 % 256, m / 256 ^ 6 % 256, m / 256 ^ 5 % 256,
       m / 256 ^ 4 % 256, m / 256 ^ 3 % 256, m / 256 ^ 2 % 256,
       m / 256 ^ 1 % 256, m / 256 ^ 0 % 256] := fun _ => rfl
  rw [hb, hb]
  norm_num
  refine ⟨?_, ?_, ?_, ?_, ?_, ?_, ?_, ?_⟩ <;> omega

theorem checkSum_rep (h0 : Words5) (D : List Nat) (d : digest) (hr : Rep h0 D d) :
    ∃ d', Rep h0 (D ++ padding d.len ++ lenBytes d.len) d' ∧
      d.checkSum = if d'.nx ≠ 0 then none else some (d', digestBytes d'.h) := by
  obtain ⟨r1, e1, _, _, _, hr1⟩ := Rep_Write h0 D d (padding d.len) hr
  obtain ⟨r2, e2, _, _, _, hr2⟩ := Rep_Write h0 _ r1.d (lenBytes d.len) hr1
  refine ⟨r2.d, hr2, ?_⟩
  unfold digest.checkSum
  simp only [e1, e2]

theorem padded_length_mod (D : List Nat) (len : Nat) (hl : len % 64 = D.length % 64) :
    (D ++ padding len ++ lenBytes len).length % 64 = 0 := by
  rw [List.length_append, List.length_append, padding_length, lenBytes_length]
  omega

theorem checkSum_ok (h0 : Words5) (D : List Nat) (d : digest) (hr : Rep h0 D d)
    (hl : d.len % 64 = D.length % 64) :
    ∃ d', d.checkSum = some (d', digestBytes (blockN
        ((D ++ padding d.len ++ lenBytes d.len).length / 64) h0
        (D ++ padding d.len ++ lenBytes d.len))) ∧ d'.nx = 0 := by
  obtain ⟨d', hr', e⟩ := checkSum_rep h0 D d hr
  have hnx : d'.nx = 0 := by
    rw [hr'.1, padded_length_mod D d.len hl]; rfl
  refine ⟨d', ?_, hnx⟩
  rw [e, hr'.2.1]
  simp [hnx]

theorem blockN_eq_foldl (n : Nat) : ∀ (h : Words5) (p : List Nat),
    blockN n h p = (chunksN n p).foldl blockChunk h := by
  induction n with
  | zero => intro h p; rfl
  | succ n ih => intro h p; simp only [blockN, chunksN, List.foldl_cons]; exact ih _ _

theorem digestBytes_eq (h : Words5) : digestBytes h = serialize h := by
  have hb : ∀ w, be32 w = [w / 256 ^ 3 % 256, w / 256 ^ 2 % 256, w / 256 ^ 1 % 256, w / 256 ^ 0 % 256] :=
    fun _ => rfl
  simp only [digestBytes, serialize, Words5.toList, hb, List.flatMap_cons, List.flatMap_nil,
    Nat.shiftRight_eq_div_pow]
  norm_num

/-- The checksum of a state that stands for the stream `D` with a matching
length: the block transform over the padded stream, serialized. -/
theorem checkSum_value (h0 : Words5) (D : List Nat) (d : digest) (hr : Rep h0 D d)
    (hl : d.len % 64 = D.length % 64) :
    ∃ d', d.checkSum = some (d', digestBytes (blockN
        ((D ++ padding (d.len % 2 ^ 64) ++ lenBytes (d.len % 2 ^ 64)).length / 64) h0
        (D ++ padding (d.len % 2 ^ 64) ++ lenBytes (d.len % 2 ^ 64)))) ∧ d'.nx = 0 := by
  have hp : padding (d.len % 2 ^ 64) = padding d.len := by
    rw [padding_eq, padding_eq]; congr 3; omega
  have hb : lenBytes (d.len % 2 ^ 64) = lenBytes d.len := by
    rw [lenBytes_eq, lenBytes_eq, be64_mod]
  rw [hp, hb]
  exact checkSum_ok h0 D d hr hl

theorem Sum_value (data : List Nat) :
    Sum data = some (digestBytes (blockN
        ((data ++ padding (data.length % 2 ^ 64) ++ lenBytes (data.length % 2 ^ 64)).length / 64)
        initH (data ++ padding (data.length % 2 ^ 64) ++ lenBytes (data.length % 2 ^ 64)))) := by
  obtain ⟨r, e, _, _, elen, hr⟩ := Rep_Write initH [] digest.zero.Reset data (Rep_Reset _)
  rw [List.nil_append] at hr
  have hl0 : digest.zero.Reset.len = 0 := rfl
  rw [hl0, Nat.zero_add] at elen
  obtain ⟨d', ec, _⟩ := checkSum_value initH data r.d hr (by rw [elen]; omega)
  unfold Sum
  simp only [e, ec, elen, Nat.mod_mod]

theorem padded_eq (data : List Nat) :
    data ++ padding (data.length % 2 ^ 64) ++ lenBytes (data.length % 2 ^ 64)
      = padded data ((119 - data.length % 64) % 64) := by
  have hm : data.length % 2 ^ 64 % 64 = data.length % 64 := by omega
  rw [padding_eq, lenBytes_eq, be64_mod, hm]
  simp [padded]

theorem padded_length (data : List Nat) (k : Nat) :
    (padded data k).length = data.length + 1 + k + 8 := by
  simp [padded, be64]
  omega

/-! ## The claims -/

/-- C1: for every byte sequence `data`, `Sum data` is the Merkle-Damgard
reference: with `k` the least number of zero bytes that makes the length of
`data ++ [0x80] ++ zeros ++ be64 (8 * len data)` a multiple of 64, the block
transform is folded over the 64-byte chunks of that message from the initial
constants and the five words are serialized big-endian into 20 bytes. -/
theorem Sum_eq_reference (data : List Nat) :
    ∃ k, (padded data k).length % 64 = 0 ∧
      (∀ j, j < k → (padded data j).length % 64 ≠ 0) ∧
      Sum data = some (refDigest data k) ∧ (refDigest data k).length = 20 := by
  refine ⟨(119 - data.length % 64) % 64, ?_, ?_, ?_, ?_⟩
  · rw [padded_length]; omega
  · intro j hj; rw [padded_length]; omega
  · rw [Sum_value, padded_eq, blockN_eq_foldl, digestBytes_eq]; rfl
  · simp [refDigest, serialize, be32]

set_option maxRecDepth 1000000 in
/-- C2: with the block transform of the specification, `Sum` of the empty
sequence is `da39a3ee5e6b4b0d3255bfef95601890afd80709`, `Sum "abc"` is
`a9993e364706816aba3e25717850c26c9cd0d89d`, and `Sum` of the 56-byte string
`abcdbcdecdefdefgefghfghighijhijkijkljklmklmnlmnomnopnopq` is
`84983e441c3bd26ebaae4aa1f95129e5e54670f1`. -/
theorem Sum_test_vectors :
    Sum [] = some [0xda, 0x39, 0xa3, 0xee, 0x5e, 0x6b, 0x4b, 0x0d, 0x32, 0x55,
                   0xbf, 0xef, 0x95, 0x60, 0x18, 0x90, 0xaf, 0xd8, 0x07, 0x09] ∧
    Sum [0x61, 0x62, 0x63]
      = some [0xa9, 0x99, 0x3e, 0x36, 0x47, 0x06, 0x81, 0x6a, 0xba, 0x3e,
              0x25, 0x71, 0x78, 0x50, 0xc2, 0x6c, 0x9c, 0xd0, 0xd8, 0x9d] ∧
    Sum [0x61, 0x62, 0x63, 0x64, 0x62, 0x63, 0x64, 0x65, 0x63, 0x64, 0x65, 0x66,
         0x64, 0x65, 0x66, 0x67, 0x65, 0x66, 0x67, 0x68, 0x66, 0x67, 0x68, 0x69,
         0x67, 0x68, 0x69, 0x6a, 0x68, 0x69, 0x6a, 0x6b, 0x69, 0x6a, 0x6b, 0x6c,
         0x6a, 0x6b, 0x6c, 0x6d, 0x6b, 0x6c, 0x6d, 0x6e, 0x6c, 0x6d, 0x6e, 0x6f,
         0x6d, 0x6e, 0x6f, 0x70, 0x6e, 0x6f, 0x70, 0x71]
      = some [0x84, 0x98, 0x3e, 0x44, 0x1c, 0x3b, 0xd2, 0x6e, 0xba, 0xae,
              0x4a, 0xa1, 0xf9, 0x51, 0x29, 0xe5, 0xe5, 0x46, 0x70, 0xf1] := by
  refine ⟨?_, ?_, ?_⟩ <;> decide

/-- The stream absorbed by `Reset`, `Write(d1)`, `Write(d2)` is `d1 ++ d2`. -/
theorem Rep_two_writes (d : digest) (d1 d2 : List Nat) :
    ∃ r1 r2, d.Reset.Write d1 = some r1 ∧ r1.d.Write d2 = some r2 ∧
      Rep initH d1 r1.d ∧ r1.d.len = d1.length % 2 ^ 64 ∧
      Rep initH (d1 ++ d2) r2.d ∧ r2.d.len = (d1 ++ d2).length % 2 ^ 64 := by
  obtain ⟨r1, e1, _, _, elen1, hr1⟩ := Rep_Write initH [] d.Reset d1 (Rep_Reset _)
  rw [List.nil_append] at hr1
  have hl0 : d.Reset.len = 0 := rfl
  rw [hl0, Nat.zero_add] at elen1
  obtain ⟨r2, e2, _, _, elen2, hr2⟩ := Rep_Write initH d1 r1.d d2 hr1
  refine ⟨r1, r2, e1, e2, hr1, elen1, hr2, ?_⟩
  rw [elen2, elen1, List.length_append]; omega

/-- The checksum of a state that stands for all of `data` from the initial
constants is `Sum data`. -/
theorem checkSum_eq_Sum (data : List Nat) (d : digest) (hr : Rep initH data d)
    (hl : d.len = data.length % 2 ^ 64) :
    ∃ d', d.checkSum = some (d', digestBytes (blockN
        ((data ++ padding (data.length % 2 ^ 64) ++ lenBytes (data.length % 2 ^ 64)).length / 64)
        initH (data ++ padding (data.length % 2 ^ 64) ++ lenBytes (data.length % 2 ^ 64)))) ∧
      d'.nx = 0 := by
  obtain ⟨d', ec, hnx⟩ := checkSum_value initH data d hr (by rw [hl]; omega)
  refine ⟨d', ?_, hnx⟩
  rw [ec, hl, Nat.mod_mod]

/-- C3: incremental equivalence.  For every split `d1 ++ d2` of a byte sequence
(either part may be empty, of any length), the run `Reset`, `Write(d1)`,
`Write(d2)`, `checkSum` from any state returns the digest `Sum (d1 ++ d2)`. -/
theorem incremental_eq_Sum (d : digest) (d1 d2 : List Nat) :
    ∃ dg, Sum (d1 ++ d2) = some dg ∧ incremental d d1 d2 = some dg := by
  obtain ⟨r1, r2, e1, e2, _, _, hr2, elen2⟩ := Rep_two_writes d d1 d2
  obtain ⟨d', ec, _⟩ := checkSum_eq_Sum (d1 ++ d2) r2.d hr2 elen2
  refine ⟨_, Sum_value (d1 ++ d2), ?_⟩
  unfold incremental
  simp only [e1, e2, ec]

theorem digest_Sum_of_checkSum (d0 : digest) (b : List Nat) (c : digest × List Nat)
    (e : d0.checkSum = some c) : d0.Sum b = some (d0, b ++ c.2) := by
  unfold digest.Sum
  dsimp only
  rw [e]

theorem sumTwice_of_steps (d : digest) (d1 d2 : List Nat) (r1 r2 : WriteResult)
    (c1 c2 : digest × List Nat) (e1 : d.Reset.Write d1 = some r1)
    (ec1 : r1.d.checkSum = some c1) (e2 : r1.d.Write d2 = some r2)
    (ec2 : r2.d.checkSum = some c2) : sumTwice d d1 d2 = some (c1.2, c2.2) := by
  unfold sumTwice
  rw [e1]
  dsimp only
  rw [digest_Sum_of_checkSum _ _ _ ec1]
  dsimp only
  rw [e2]
  dsimp only
  rw [digest_Sum_of_checkSum _ _ _ ec2]
  simp

/-- C4: finalize-on-copy.  The method `Sum` hands back its receiver with every
field as it was, and in the run `Reset`, `Write(d1)`, `x = Sum(nil)`,
`Write(d2)`, `y = Sum(nil)` the value `x` is the package-level `Sum d1` and `y`
is the package-level `Sum (d1 ++ d2)`. -/
theorem Sum_on_copy (d : digest) (d1 d2 : List Nat) :
    (∀ (d0 : digest) (b : List Nat),
      (d0.Sum b).map Prod.fst = d0.checkSum.map fun _ => d0) ∧
    ∃ x y, sumTwice d d1 d2 = some (x, y) ∧ Sum d1 = some x ∧ Sum (d1 ++ d2) = some y := by
  constructor
  · intro d0 b
    unfold digest.Sum
    dsimp only
    cases d0.checkSum <;> rfl
  · obtain ⟨r1, r2, e1, e2, hr1, elen1, hr2, elen2⟩ := Rep_two_writes d d1 d2
    obtain ⟨c1, ec1, _⟩ := checkSum_eq_Sum d1 r1.d hr1 elen1
    obtain ⟨c2, ec2, _⟩ := checkSum_eq_Sum (d1 ++ d2) r2.d hr2 elen2
    have h := sumTwice_of_steps d d1 d2 r1 r2 _ _ e1 ec1 e2 ec2
    exact ⟨_, _, h, Sum_value d1, Sum_value (d1 ++ d2)⟩

theorem Sum_of_steps (data : List Nat) (r : WriteResult) (c : digest × List Nat)
    (e : digest.zero.Reset.Write data = some r) (ec : r.d.checkSum = some c) :
    Sum data = some c.2 := by
  unfold Sum
  dsimp only
  rw [e]
  dsimp only
  rw [ec]

theorem SumWithInitialState_of_steps (data : List Nat) (h : Words5) (r : WriteResult)
    (c : digest × List Nat)
    (e : digest.Write { digest.zero.Reset.setH h with len := 64 } data = some r)
    (ec : r.d.checkSum = some c) : SumWithInitialState data h = some c.2 := by
  unfold SumWithInitialState
  dsimp only
  rw [e]
  dsimp only
  rw [ec]

/-- The state `SumWithInitialState` builds before it writes stands for one
block already absorbed, whenever `h` is the block transform of that block. -/
theorem Rep_resume (B : List Nat) (hB : B.length = 64) :
    Rep initH B { digest.zero.Reset.setH (blockChunk initH B) with len := 64 } := by
  refine ⟨?_, ?_, ?_⟩
  · rw [hB]; rfl
  · rw [hB]
    show (⟨_, _, _, _, _⟩ : Words5) = blockN 1 initH B
    simp only [blockN]
    rw [List.take_of_length_le (by rw [hB]; exact le_refl _)]
  · rw [hB]; simp [hB]

/-- C5: resume equals one-shot on a one-block prefix.  For every 64-byte block
`B` and every `data`, with `h5` the block transform of `B` from the five initial
constants, `SumWithInitialState data h5` is `Sum (B ++ data)`. -/
theorem SumWithInitialState_eq_Sum (B data : List Nat) (hB : B.length = 64) :
    ∃ dg, Sum (B ++ data) = some dg ∧
      SumWithInitialState data (blockChunk ⟨0x67452301, 0xEFCDAB89, 0x98BADCFE, 0x10325476,
        0xC3D2E1F0⟩ B) = some dg := by
  obtain ⟨r, e, _, _, elen, hr⟩ := Rep_Write initH B _ data (Rep_resume B hB)
  have hl : r.d.len = (B ++ data).length % 2 ^ 64 := by
    rw [elen, List.length_append, hB]
  obtain ⟨c, ec, _⟩ := checkSum_eq_Sum (B ++ data) r.d hr hl
  exact ⟨_, Sum_value (B ++ data), SumWithInitialState_of_steps data _ r _ e ec⟩

/-- C5 at the all-zero block and the data `abc`. -/
theorem SumWithInitialState_eq_Sum_witness :
    (List.replicate 64 0).length = 64 ∧
    ∃ dg, Sum (List.replicate 64 0 ++ [0x61, 0x62, 0x63]) = some dg ∧
      SumWithInitialState [0x61, 0x62, 0x63]
        (blockChunk ⟨0x67452301, 0xEFCDAB89, 0x98BADCFE, 0x10325476, 0xC3D2E1F0⟩
          (List.replicate 64 0)) = some dg :=
  ⟨by decide, SumWithInitialState_eq_Sum (List.replicate 64 0) [0x61, 0x62, 0x63] (by decide)⟩

/-- C6: the panic in `checkSum` is unreachable.  From `Reset` followed by any
finite sequence of `Write` calls, and from the states built inside `Sum` and
`SumWithInitialState` for any `data` and any `h5`, `checkSum` returns a digest,
and the receiver it leaves has `nx = 0`. -/
theorem checkSum_no_panic :
    (∀ (d : digest) (ps : List (List Nat)), ∃ d' c,
      writes d.Reset ps = some d' ∧ d'.checkSum = some c ∧ c.1.nx = 0) ∧
    (∀ data : List Nat, ∃ r c,
      digest.zero.Reset.Write data = some r ∧ r.d.checkSum = some c ∧ c.1.nx = 0 ∧
      Sum data = some c.2) ∧
    (∀ (data : List Nat) (h5 : Words5), ∃ r c,
      digest.Write { digest.zero.Reset.setH h5 with len := 64 } data = some r ∧
      r.d.checkSum = some c ∧ c.1.nx = 0 ∧ SumWithInitialState data h5 = some c.2) := by
  refine ⟨?_, ?_, ?_⟩
  · intro d ps
    obtain ⟨d', e, hr, elen⟩ := Rep_writes initH ps [] d.Reset (Rep_Reset d)
    rw [List.nil_append] at hr
    have hl0 : d.Reset.len = 0 := rfl
    rw [hl0, Nat.zero_add] at elen
    obtain ⟨c, ec, hnx⟩ := checkSum_ok initH _ d' hr (by omega)
    exact ⟨d', _, e, ec, hnx⟩
  · intro data
    obtain ⟨r, e, _, _, elen, hr⟩ := Rep_Write initH [] digest.zero.Reset data (Rep_Reset _)
    rw [List.nil_append] at hr
    have hl0 : digest.zero.Reset.len = 0 := rfl
    rw [hl0, Nat.zero_add] at elen
    obtain ⟨c, ec, hnx⟩ := checkSum_ok initH data r.d hr (by rw [elen]; omega)
    exact ⟨r, _, e, ec, hnx, Sum_of_steps data r _ e ec⟩
  · intro data h5
    have h0 : Rep h5 [] { digest.zero.Reset.setH h5 with len := 64 } := by
      refine ⟨rfl, rfl, ?_⟩
      simp
    obtain ⟨r, e, _, _, elen, hr⟩ := Rep_Write h5 [] _ data h0
    rw [List.nil_append] at hr
    have elen' : r.d.len = (64 + data.length) % 2 ^ 64 := elen
    obtain ⟨c, ec, hnx⟩ := checkSum_ok h5 data r.d hr (by rw [elen']; omega)
    exact ⟨r, _, e, ec, hnx, SumWithInitialState_of_steps data h5 r _ e ec⟩

/-- C7: for every state and every byte sequence `p`, `Write p` returns
`nn = len p` with a nil error and sets `d.len` to the previous `d.len` plus
`len p`, modulo `2^64`.  The states are all those the code can be in: the ones
reached from `Reset` by any writes, the ones reached from the state
`SumWithInitialState` builds by any writes, and more generally every state with
`nx ≤ 64`. -/
theorem Write_returns (d0 : digest) (ps : List (List Nat)) (h5 : Words5) (p : List Nat) :
    (∃ d, writes d0.Reset ps = some d ∧
      ∃ r, d.Write p = some r ∧ r.nn = (p.length : Int) ∧ r.err = none ∧
        r.d.len = (d.len + p.length) % 2 ^ 64) ∧
    (∃ d, writes { digest.zero.Reset.setH h5 with len := 64 } ps = some d ∧
      ∃ r, d.Write p = some r ∧ r.nn = (p.length : Int) ∧ r.err = none ∧
        r.d.len = (d.len + p.length) % 2 ^ 64) ∧
    (∀ d : digest, d.nx ≤ 64 →
      ∃ r, d.Write p = some r ∧ r.nn = (p.length : Int) ∧ r.err = none ∧
        r.d.len = (d.len + p.length) % 2 ^ 64) := by
  refine ⟨?_, ?_, ?_⟩
  · obtain ⟨d, e, hr, _⟩ := Rep_writes initH ps [] d0.Reset (Rep_Reset d0)
    obtain ⟨r, er, enn, eerr, elen, _⟩ := Rep_Write initH _ d p hr
    exact ⟨d, e, r, er, enn, eerr, elen⟩
  · have h0 : Rep h5 [] { digest.zero.Reset.setH h5 with len := 64 } := by
      refine ⟨rfl, rfl, ?_⟩
      simp
    obtain ⟨d, e, hr, _⟩ := Rep_writes h5 ps [] _ h0
    obtain ⟨r, er, enn, eerr, elen, _⟩ := Rep_Write h5 _ d p hr
    exact ⟨d, e, r, er, enn, eerr, elen⟩
  · intro d h
    by_cases hn : d.nx ≤ 0
    · exact ⟨_, Write_of_nx_nonpos d p hn, rfl, rfl, writeRest_len _ _⟩
    · obtain ⟨k, hk⟩ : ∃ k : Nat, d.nx = (k : Int) := ⟨d.nx.toNat, by omega⟩
      by_cases hs : k + p.length < 64
      · exact ⟨_, Write_short d p k hk (by omega) hs, rfl, rfl, rfl⟩
      · exact ⟨_, Write_fill d p k hk (by omega) (by omega) (by omega), rfl, rfl,
          writeRest_len _ _⟩

/-- C8: for every prior state, `Reset` yields the five initial constants in `h`,
`nx = 0` and `len = 0`, and leaves the 64 bytes of the buffer `x` as they
were. -/
theorem Reset_spec (d : digest) :
    d.Reset.h = ⟨0x67452301, 0xEFCDAB89, 0x98BADCFE, 0x10325476, 0xC3D2E1F0⟩ ∧
    d.Reset.nx = 0 ∧ d.Reset.len = 0 ∧ d.Reset.x = d.x ∧ d.Reset.x.val.length = 64 :=
  ⟨rfl, rfl, rfl, rfl, d.x.property⟩

/-- C9: chaining-value invariant.  After `Reset` and the writes of `p1 … pk`,
with `D` their concatenation and `q = len D / 64`, the accumulator `h` is the
block transform folded over the first `q` chunks of `D` from the initial
constants (the constants themselves when `q = 0`), and the valid prefix
`x[0:nx]` is the unprocessed tail `D[64*q:]`. -/
theorem chaining_value_invariant (d : digest) (ps : List (List Nat)) :
    ∃ d', writes d.Reset ps = some d' ∧
      d'.h = (chunksN (ps.flatten.length / 64) ps.flatten).foldl blockChunk
        ⟨0x67452301, 0xEFCDAB89, 0x98BADCFE, 0x10325476, 0xC3D2E1F0⟩ ∧
      (ps.flatten.length / 64 = 0 →
        d'.h = ⟨0x67452301, 0xEFCDAB89, 0x98BADCFE, 0x10325476, 0xC3D2E1F0⟩) ∧
      d'.nx = ((ps.flatten.length % 64 : Nat) : Int) ∧
      d'.x.val.take d'.nx.toNat = ps.flatten.drop (64 * (ps.flatten.length / 64)) := by
  obtain ⟨d', e, hr, _⟩ := Rep_writes initH ps [] d.Reset (Rep_Reset d)
  rw [List.nil_append] at hr
  obtain ⟨h1, h2, h3⟩ := hr
  refine ⟨d', e, ?_, ?_, h1, ?_⟩
  · rw [h2, blockN_eq_foldl]; rfl
  · intro hq; rw [h2, hq]; rfl
  · rw [h1, Int.toNat_ofNat]; exact h3

/-- C10: buffer-length invariant.  `0 ≤ nx < 64` holds after `Reset` and is
preserved by every `Write`; a buffer that reaches 64 bytes is compressed in
the same call and `nx` is set back to 0. -/
theorem nx_invariant (d0 d : digest) (p : List Nat) (h0 : 0 ≤ d.nx) (h1 : d.nx < 64) :
    (0 ≤ d0.Reset.nx ∧ d0.Reset.nx < 64) ∧
    ∃ r, d.Write p = some r ∧ 0 ≤ r.d.nx ∧ r.d.nx < 64 ∧ r.d.nx ≠ 64 ∧
      (d.nx + p.length = 64 →
        r.d.nx = 0 ∧ r.d.h = blockChunk d.h (d.x.val.take d.nx.toNat ++ p)) := by
  have hr : d0.Reset.nx = 0 := rfl
  refine ⟨⟨by omega, by omega⟩, ?_⟩
  obtain ⟨k, hk⟩ : ∃ k : Nat, d.nx = (k : Int) := ⟨d.nx.toNat, by omega⟩
  obtain ⟨r, e, _, _, _, enx, eh, _⟩ := Write_spec d p k hk (by omega)
  have hx := d.x.property
  refine ⟨r, e, by omega, by omega, by omega, ?_⟩
  intro hfull
  have hkp : k + p.length = 64 := by omega
  refine ⟨by rw [enx, hkp]; rfl, ?_⟩
  rw [eh, hk, Int.toNat_ofNat, hkp]
  show blockN 1 _ _ = _
  simp only [blockN]
  rw [List.take_of_length_le]
  rw [List.length_append, List.length_take, hx]
  unfold chunk; omega

/-- C10 at a state with 60 buffered bytes and a write of 4 bytes, which fills
the buffer. -/
theorem nx_invariant_witness :
    (0 ≤ stateNx60.nx ∧ stateNx60.nx < 64) ∧
    (0 ≤ stateNx65.Reset.nx ∧ stateNx65.Reset.nx < 64) ∧
    ∃ r, stateNx60.Write [1, 2, 3, 4] = some r ∧ 0 ≤ r.d.nx ∧ r.d.nx < 64 ∧ r.d.nx ≠ 64 ∧
      (stateNx60.nx + ([1, 2, 3, 4] : List Nat).length = 64 →
        r.d.nx = 0 ∧
        r.d.h = blockChunk stateNx60.h (stateNx60.x.val.take stateNx60.nx.toNat ++ [1, 2, 3, 4])) :=
  ⟨⟨by decide, by decide⟩, nx_invariant stateNx65 stateNx60 [1, 2, 3, 4] (by decide) (by decide)⟩

/-! ## Padding and length suffix -/

theorem Write_none_of_gt (d : digest) (p : List Nat) (h : d.nx > 64) : d.Write p = none := by
  unfold digest.Write
  have h1 : d.nx > 0 := by omega
  have h2 : d.nx > (chunk : Int) := by unfold chunk; omega
  dsimp only
  rw [if_pos h1, if_pos h2]

theorem Write_of_le (d : digest) (p : List Nat) (h : d.nx ≤ 64) :
    ∃ r, d.Write p = some r ∧ r.nn = (p.length : Int) ∧ r.err = none ∧
      r.d.len = (d.len + p.length) % 2 ^ 64 := by
  by_cases h0 : d.nx ≤ 0
  · exact ⟨_, Write_of_nx_nonpos d p h0, rfl, rfl, writeRest_len _ _⟩
  · obtain ⟨k, hk⟩ : ∃ k : Nat, d.nx = (k : Int) := ⟨d.nx.toNat, by omega⟩
    by_cases hs : k + p.length < 64
    · exact ⟨_, Write_short d p k hk (by omega) hs, rfl, rfl, rfl⟩
    · exact ⟨_, Write_fill d p k hk (by omega) (by omega) (by omega), rfl, rfl,
        writeRest_len _ _⟩

theorem Write_len_of_some (d : digest) (p : List Nat) (r : WriteResult)
    (e : d.Write p = some r) : r.d.len = (d.len + p.length) % 2 ^ 64 ∧ d.nx ≤ 64 := by
  by_cases h : d.nx ≤ 64
  · obtain ⟨r', e', _, _, hl⟩ := Write_of_le d p h
    rw [e'] at e
    cases e
    exact ⟨hl, h⟩
  · rw [Write_none_of_gt d p (by omega)] at e
    cases e

theorem be64_list (m : Nat) : be64 m =
    [m / 256 ^ 7 % 256, m / 256 ^ 6 % 256, m / 256 ^ 5 % 256, m / 256 ^ 4 % 256,
     m / 256 ^ 3 % 256, m / 256 ^ 2 % 256, m / 256 ^ 1 % 256, m / 256 ^ 0 % 256] := rfl

theorem be64_mod_pow (m : Nat) : be64 (m % 2 ^ 64) = be64 m := by
  rw [be64_list, be64_list]
  have h7 : m % 2 ^ 64 / 256 ^ 7 % 256 = m / 256 ^ 7 % 256 := by norm_num; omega
  have h6 : m % 2 ^ 64 / 256 ^ 6 % 256 = m / 256 ^ 6 % 256 := by norm_num; omega
  have h5 : m % 2 ^ 64 / 256 ^ 5 % 256 = m / 256 ^ 5 % 256 := by norm_num; omega
  have h4 : m % 2 ^ 64 / 256 ^ 4 % 256 = m / 256 ^ 4 % 256 := by norm_num; omega
  have h3 : m % 2 ^ 64 / 256 ^ 3 % 256 = m / 256 ^ 3 % 256 := by norm_num; omega
  have h2 : m % 2 ^ 64 / 256 ^ 2 % 256 = m / 256 ^ 2 % 256 := by norm_num; omega
  have h1 : m % 2 ^ 64 / 256 ^ 1 % 256 = m / 256 ^ 1 % 256 := by norm_num; omega
  have h0 : m % 2 ^ 64 / 256 ^ 0 % 256 = m / 256 ^ 0 % 256 := by
    rw [Nat.pow_zero, Nat.div_one, Nat.div_one]; omega
  rw [h7, h6, h5, h4, h3, h2, h1, h0]

theorem decodeBE_be64 (m : Nat) : decodeBE (be64 m) = m % 2 ^ 64 := by
  rw [be64_list]
  simp only [decodeBE, List.foldl_cons, List.foldl_nil]
  norm_num
  omega

/-- C11, as stated, fails: at a length of 0 the padding holds 55 zero bytes
after the byte `0x80`, not `56 - 0 % 64 = 56`. -/
theorem padding_zero_count_off_by_one :
    padding 0 = 0x80 :: List.replicate 55 0 ∧ (padding 0).count 0 = 55 ∧
      ¬ ((padding 0).count 0 = 56 - 0 % 64) := by
  decide

/-- C11, amended: for every entry value of the length, the padding `checkSum`
writes before the 8-byte length has `56 - len % 64` bytes when `len % 64 < 56`
and `64 + 56 - len % 64` bytes otherwise, the byte `0x80` included; the number
of `0x00` bytes after the `0x80` is one less. -/
theorem padding_count (len : Nat) :
    (padding len).length = (if len % 64 < 56 then 56 - len % 64 else 64 + 56 - len % 64) ∧
    padding len = 0x80 ::
      List.replicate (if len % 64 < 56 then 55 - len % 64 else 119 - len % 64) 0 ∧
    (padding len).count 0 = (if len % 64 < 56 then 55 - len % 64 else 119 - len % 64) := by
  have hk : (119 - len % 64) % 64 = (if len % 64 < 56 then 55 - len % 64 else 119 - len % 64) := by
    split <;> omega
  refine ⟨?_, ?_, ?_⟩
  · rw [padding_length]; split <;> omega
  · rw [padding_eq, hk]
  · rw [padding_eq, hk, List.count_cons, List.count_replicate_self]
    simp

/-- C12: for every entry state of `checkSum`, the padding written before the
length suffix is one byte `0x80` followed only by `0x00` bytes, and once `Write`
has absorbed it `d.len` is congruent to 56 modulo 64; that write returns
whenever `nx ≤ 64`. -/
theorem padding_absorbed (d : digest) :
    (∃ k, padding d.len = 0x80 :: List.replicate k 0) ∧
    (∀ r1, d.Write (padding d.len) = some r1 → r1.d.len % 64 = 56) ∧
    (d.nx ≤ 64 → ∃ r1, d.Write (padding d.len) = some r1 ∧ r1.d.len % 64 = 56) := by
  have hlen : ∀ r1, d.Write (padding d.len) = some r1 → r1.d.len % 64 = 56 := by
    intro r1 e
    rw [(Write_len_of_some d _ r1 e).1, padding_length]
    omega
  refine ⟨⟨_, padding_eq d.len⟩, hlen, ?_⟩
  intro h
  obtain ⟨r1, e, _⟩ := Write_of_le d (padding d.len) h
  exact ⟨r1, e, hlen r1 e⟩

/-- C13: the last 8 bytes `checkSum` absorbs are the big-endian encoding of
`8 * L` in unsigned 64-bit arithmetic, with `L` the value of `d.len` at entry:
the bytes of the padding and of the length itself are not counted. -/
theorem length_suffix (d : digest) :
    lenBytes d.len = be64 (8 * d.len % 2 ^ 64) ∧
    (lenBytes d.len).length = 8 ∧
    decodeBE (lenBytes d.len) = 8 * d.len % 2 ^ 64 ∧
    d.checkSum =
      (match d.Write (padding d.len) with
       | none => none
       | some r1 =>
         match r1.d.Write (be64 (8 * d.len % 2 ^ 64)) with
         | none => none
         | some r2 => if r2.d.nx ≠ 0 then none else some (r2.d, digestBytes r2.d.h)) := by
  have h1 : lenBytes d.len = be64 (8 * d.len % 2 ^ 64) := by
    rw [lenBytes_eq, be64_mod_pow]
  refine ⟨h1, lenBytes_length _, ?_, ?_⟩
  · rw [lenBytes_eq, decodeBE_be64]
  · rw [← h1]; rfl

/-! ## The result of `checkSum` -/

theorem checkSum_of_some (d : digest) (c : digest × List Nat) (e : d.checkSum = some c) :
    c.2 = digestBytes c.1.h ∧ c.1.nx = 0 := by
  unfold digest.checkSum at e
  dsimp only at e
  cases h1 : d.Write (padding d.len) with
  | none => rw [h1] at e; cases e
  | some r1 =>
    rw [h1] at e
    dsimp only at e
    cases h2 : r1.d.Write (lenBytes d.len) with
    | none => rw [h2] at e; cases e
    | some r2 =>
      rw [h2] at e
      dsimp only at e
      by_cases hnx : r2.d.nx ≠ 0
      · rw [if_pos hnx] at e; cases e
      · rw [if_neg hnx] at e
        cases e
        exact ⟨rfl, not_not.mp hnx⟩

theorem digestBytes_list (h : Words5) : digestBytes h =
    [(h.h0 >>> 24) % 256, (h.h0 >>> 16) % 256, (h.h0 >>> 8) % 256, h.h0 % 256,
     (h.h1 >>> 24) % 256, (h.h1 >>> 16) % 256, (h.h1 >>> 8) % 256, h.h1 % 256,
     (h.h2 >>> 24) % 256, (h.h2 >>> 16) % 256, (h.h2 >>> 8) % 256, h.h2 % 256,
     (h.h3 >>> 24) % 256, (h.h3 >>> 16) % 256, (h.h3 >>> 8) % 256, h.h3 % 256,
     (h.h4 >>> 24) % 256, (h.h4 >>> 16) % 256, (h.h4 >>> 8) % 256, h.h4 % 256] := rfl

theorem decodeBE_word (s : Nat) (hs : s < 2 ^ 32) :
    decodeBE [(s >>> 24) % 256, (s >>> 16) % 256, (s >>> 8) % 256, s % 256] = s := by
  simp only [decodeBE, List.foldl_cons, List.foldl_nil, Nat.shiftRight_eq_div_pow]
  norm_num at hs ⊢
  omega

theorem digestBytes_index (h : Words5) (i j : Nat) (hi : i < 5) (hj : j < 4) :
    (digestBytes h).getD (4 * i + j) 0 = (h.toList.getD i 0 >>> (24 - 8 * j)) % 256 := by
  rw [digestBytes_list]
  interval_cases i <;> interval_cases j <;> simp [Words5.toList]

theorem wordsOfBytes_digestBytes (h : Words5) (hv : h.valid) :
    wordsOfBytes (digestBytes h) = h := by
  obtain ⟨v0, v1, v2, v3, v4⟩ := hv
  rw [digestBytes_list]
  simp only [wordsOfBytes, List.take, List.drop]
  rw [decodeBE_word _ v0, decodeBE_word _ v1, decodeBE_word _ v2, decodeBE_word _ v3,
    decodeBE_word _ v4]

theorem blockChunk_valid (h : Words5) (c : List Nat) : (blockChunk h c).valid := by
  have hp : 0 < 2 ^ 32 := by decide
  exact ⟨Nat.mod_lt _ hp, Nat.mod_lt _ hp, Nat.mod_lt _ hp, Nat.mod_lt _ hp, Nat.mod_lt _ hp⟩

theorem blockN_valid (n : Nat) : ∀ (h : Words5) (p : List Nat), h.valid → (blockN n h p).valid := by
  induction n with
  | zero => intro h p hv; exact hv
  | succ n ih => intro h p _; exact ih _ _ (blockChunk_valid _ _)

theorem Write_valid (d : digest) (p : List Nat) (r : WriteResult) (hv : d.h.valid)
    (e : d.Write p = some r) : r.d.h.valid := by
  have hle := (Write_len_of_some d p r e).2
  by_cases h0 : d.nx ≤ 0
  · rw [Write_of_nx_nonpos d p h0] at e
    cases e
    rw [writeRest_h]
    exact blockN_valid _ _ _ hv
  · obtain ⟨k, hk⟩ : ∃ k : Nat, d.nx = (k : Int) := ⟨d.nx.toNat, by omega⟩
    by_cases hs : k + p.length < 64
    · rw [Write_short d p k hk (by omega) hs] at e
      cases e
      exact hv
    · rw [Write_fill d p k hk (by omega) (by omega) (by omega)] at e
      cases e
      rw [writeRest_h]
      exact blockN_valid _ _ _ (blockChunk_valid _ _)

theorem checkSum_valid (d : digest) (c : digest × List Nat) (hv : d.h.valid)
    (e : d.checkSum = some c) : c.1.h.valid := by
  unfold digest.checkSum at e
  dsimp only at e
  cases h1 : d.Write (padding d.len) with
  | none => rw [h1] at e; cases e
  | some r1 =>
    rw [h1] at e
    dsimp only at e
    cases h2 : r1.d.Write (lenBytes d.len) with
    | none => rw [h2] at e; cases e
    | some r2 =>
      rw [h2] at e
      dsimp only at e
      by_cases hnx : r2.d.nx ≠ 0
      · rw [if_pos hnx] at e; cases e
      · rw [if_neg hnx] at e
        cases e
        exact Write_valid _ _ _ (Write_valid _ _ _ hv h1) h2

/-- C14: the 20-byte result of `checkSum` is the concatenation of the five
final accumulator words, each as 4 big-endian bytes: byte `4*i + j` is
`(h[i] >> (24 - 8*j)) mod 256`, and the five words are recovered from the
digest. -/
theorem checkSum_layout (d : digest) (c : digest × List Nat) (hv : d.h.valid)
    (e : d.checkSum = some c) :
    c.2.length = 20 ∧
    (∀ i j, i < 5 → j < 4 →
      c.2.getD (4 * i + j) 0 = (c.1.h.toList.getD i 0 >>> (24 - 8 * j)) % 256) ∧
    wordsOfBytes c.2 = c.1.h := by
  obtain ⟨hc, _⟩ := checkSum_of_some d c e
  rw [hc]
  refine ⟨by rw [digestBytes_list]; rfl, ?_,
    wordsOfBytes_digestBytes _ (checkSum_valid d c hv e)⟩
  intro i j hi hj
  exact digestBytes_index _ i j hi hj

set_option maxRecDepth 1000000 in
/-- C14 at the fresh state, whose checksum is that of the empty message. -/
theorem checkSum_layout_witness :
    digest.zero.Reset.h.valid ∧ digest.zero.Reset.checkSum = some emptyFinal ∧
    emptyFinal.2.length = 20 ∧
    (∀ i j, i < 5 → j < 4 →
      emptyFinal.2.getD (4 * i + j) 0
        = (emptyFinal.1.h.toList.getD i 0 >>> (24 - 8 * j)) % 256) ∧
    wordsOfBytes emptyFinal.2 = emptyFinal.1.h :=
  ⟨by decide, by decide,
    checkSum_layout digest.zero.Reset emptyFinal (by decide) (by decide)⟩

/-! ## The direct path, the length invariant and the size of the padding -/

theorem chunksN_flatten (n : Nat) : ∀ p : List Nat, (chunksN n p).flatten = p.take (64 * n) := by
  induction n with
  | zero => intro p; simp [chunksN]
  | succ n ih =>
    intro p
    simp only [chunksN, List.flatten_cons, ih]
    rw [Nat.mul_succ, Nat.add_comm, List.take_add]

theorem chunksN_length (n : Nat) : ∀ p : List Nat, (chunksN n p).length = n := by
  induction n with
  | zero => intro p; rfl
  | succ n ih => intro p; simp [chunksN, ih]

/-- C15: the direct path leaves the buffer alone.  For every state with
`nx = 0` and every `p` whose length is a positive multiple of 64, `Write p`
leaves all of `x` unchanged and `nx = 0`, and `h` is the block transform of the
previous `h` over the chunks of `p`, which are cut straight from `p`. -/
theorem Write_direct (d : digest) (p : List Nat) (hnx : d.nx = 0) (hpos : 0 < p.length)
    (hm : p.length % 64 = 0) :
    ∃ r, d.Write p = some r ∧ r.d.x = d.x ∧ r.d.nx = 0 ∧
      r.d.h = (chunks p).foldl blockChunk d.h ∧
      (chunks p).flatten = p ∧ (chunks p).length = p.length / 64 ∧
      0 < (chunks p).length := by
  obtain ⟨e1, e2⟩ := writeRest_rem_zero { d with len := (d.len + p.length) % 2 ^ 64 } p hm
  have hl : (chunks p).length = p.length / 64 := chunksN_length _ _
  refine ⟨_, Write_of_nx_nonpos d p (by omega), e2, by rw [e1]; exact hnx, ?_, ?_, hl, ?_⟩
  · rw [writeRest_h, blockN_eq_foldl]; rfl
  · unfold chunks
    rw [chunksN_flatten, List.take_of_length_le (by omega)]
  · rw [hl]; omega

/-- C15 at the fresh state and one block of zero bytes. -/
theorem Write_direct_witness :
    digest.zero.Reset.nx = 0 ∧ 0 < (List.replicate 64 0).length ∧
    (List.replicate 64 0).length % 64 = 0 ∧
    ∃ r, digest.zero.Reset.Write (List.replicate 64 0) = some r ∧
      r.d.x = digest.zero.Reset.x ∧ r.d.nx = 0 ∧
      r.d.h = (chunks (List.replicate 64 0)).foldl blockChunk digest.zero.Reset.h ∧
      (chunks (List.replicate 64 0)).flatten = List.replicate 64 0 ∧
      (chunks (List.replicate 64 0)).length = (List.replicate 64 0).length / 64 ∧
      0 < (chunks (List.replicate 64 0)).length :=
  ⟨by decide, by decide, by decide,
    Write_direct digest.zero.Reset (List.replicate 64 0) (by decide) (by decide) (by decide)⟩

/-- C16: length/buffer consistency.  `nx = len mod 64` holds after `Reset`,
holds for the state `SumWithInitialState` builds before writing (`len = 64`,
`nx = 0`), and is preserved by every `Write`, whose new length is taken modulo
`2^64`. -/
theorem nx_eq_len_mod (d0 : digest) (h5 : Words5) (d : digest) (p : List Nat)
    (hinv : d.nx = ((d.len % 64 : Nat) : Int)) :
    d0.Reset.nx = ((d0.Reset.len % 64 : Nat) : Int) ∧
    (({ digest.zero.Reset.setH h5 with len := 64 } : digest).nx = 0 ∧
     ({ digest.zero.Reset.setH h5 with len := 64 } : digest).len = 64 ∧
     ({ digest.zero.Reset.setH h5 with len := 64 } : digest).nx
       = (((({ digest.zero.Reset.setH h5 with len := 64 } : digest).len % 64 : Nat)) : Int)) ∧
    ∃ r, d.Write p = some r ∧ r.d.len = (d.len + p.length) % 2 ^ 64 ∧
      r.d.nx = ((r.d.len % 64 : Nat) : Int) := by
  have h64 : (0 : Int) = ((64 % 64 : Nat) : Int) := by norm_num
  refine ⟨rfl, ⟨rfl, rfl, h64⟩, ?_⟩
  obtain ⟨r, e, _, _, elen, enx, _, _⟩ :=
    Write_spec d p (d.len % 64) hinv (Nat.mod_lt _ (by decide))
  refine ⟨r, e, elen, ?_⟩
  rw [enx, elen]
  congr 1
  omega

/-- C16 at a state whose length is the largest `uint64`: a write of two bytes
wraps the length around. -/
theorem nx_eq_len_mod_witness :
    stateWrap.nx = ((stateWrap.len % 64 : Nat) : Int) ∧
    stateNx65.Reset.nx = ((stateNx65.Reset.len % 64 : Nat) : Int) ∧
    (({ digest.zero.Reset.setH initH with len := 64 } : digest).nx = 0 ∧
     ({ digest.zero.Reset.setH initH with len := 64 } : digest).len = 64 ∧
     ({ digest.zero.Reset.setH initH with len := 64 } : digest).nx
       = (((({ digest.zero.Reset.setH initH with len := 64 } : digest).len % 64 : Nat)) : Int)) ∧
    ∃ r, stateWrap.Write [1, 2] = some r ∧
      r.d.len = (stateWrap.len + ([1, 2] : List Nat).length) % 2 ^ 64 ∧
      r.d.nx = ((r.d.len % 64 : Nat) : Int) :=
  ⟨by decide, nx_eq_len_mod stateNx65 initH stateWrap [1, 2] (by decide)⟩

theorem checkSum_of_steps (d : digest) (r1 r2 : WriteResult)
    (e1 : d.Write (padding d.len) = some r1) (e2 : r1.d.Write (lenBytes d.len) = some r2)
    (hnx : r2.d.nx = 0) : d.checkSum = some (r2.d, digestBytes r2.d.h) := by
  unfold digest.checkSum
  dsimp only
  rw [e1]
  dsimp only
  rw [e2]
  dsimp only
  rw [if_neg (by rw [hnx]; exact fun h => h rfl)]

/-- C17: padding is minimal.  For every state with `nx = len mod 64 = n`,
`checkSum` absorbs in total `64 - n` bytes when `n < 56` and `128 - n` bytes
when `n ≥ 56`, between 9 and 72 bytes; the padded length is the least multiple
of 64 that is at least `len + 9`; and the final accumulator is the block
transform over one block in the first case and over two in the second. -/
theorem padding_minimal (d : digest) (n : Nat) (hnx : d.nx = (n : Int))
    (hlen : d.len % 64 = n) :
    (padding d.len).length + (lenBytes d.len).length = (if n < 56 then 64 - n else 128 - n) ∧
    9 ≤ (padding d.len).length + (lenBytes d.len).length ∧
    (padding d.len).length + (lenBytes d.len).length ≤ 72 ∧
    (d.len + ((padding d.len).length + (lenBytes d.len).length)) % 64 = 0 ∧
    d.len + 9 ≤ d.len + ((padding d.len).length + (lenBytes d.len).length) ∧
    (∀ m, m % 64 = 0 → d.len + 9 ≤ m →
      d.len + ((padding d.len).length + (lenBytes d.len).length) ≤ m) ∧
    ∃ r1 r2, d.Write (padding d.len) = some r1 ∧ r1.d.Write (lenBytes d.len) = some r2 ∧
      r1.nn + r2.nn = (((padding d.len).length + (lenBytes d.len).length : Nat) : Int) ∧
      d.checkSum = some (r2.d, digestBytes r2.d.h) ∧
      r2.d.h = blockN (if n < 56 then 1 else 2) d.h
        (d.x.val.take n ++ padding d.len ++ lenBytes d.len) := by
  have hn : n < 64 := by rw [← hlen]; exact Nat.mod_lt _ (by decide)
  have hx := d.x.property
  have htl : (d.x.val.take n).length = n := by
    rw [List.length_take, hx]; unfold chunk; omega
  have hpl := padding_length d.len
  have hbl := lenBytes_length d.len
  have htot : (padding d.len).length + (lenBytes d.len).length
      = (if n < 56 then 64 - n else 128 - n) := by
    rw [hpl, hbl]; split <;> omega
  refine ⟨htot, ?_, ?_, ?_, ?_, ?_, ?_⟩
  · rw [htot]; split <;> omega
  · rw [htot]; split <;> omega
  · rw [htot]; split <;> omega
  · rw [htot]; split <;> omega
  · intro m hm hle; rw [htot]; split <;> omega
  · have hr := Rep_of_bounds d n hnx hn
    obtain ⟨r1, e1, enn1, _, _, hr1⟩ := Rep_Write d.h _ d (padding d.len) hr
    obtain ⟨r2, e2, enn2, _, _, hr2⟩ := Rep_Write d.h _ r1.d (lenBytes d.len) hr1
    have hM : (d.x.val.take n ++ padding d.len ++ lenBytes d.len).length
        = (if n < 56 then 64 else 128) := by
      rw [List.length_append, List.length_append, htl, hpl, hbl]; split <;> omega
    obtain ⟨h1, h2, _⟩ := hr2
    have hz : r2.d.nx = 0 := by
      rw [h1, hM]; split <;> rfl
    refine ⟨r1, r2, e1, e2, ?_, checkSum_of_steps d r1 r2 e1 e2 hz, ?_⟩
    · rw [enn1, enn2]; push_cast; rfl
    · rw [h2, hM]
      by_cases h56 : n < 56
      · rw [if_pos h56, if_pos h56]
      · rw [if_neg h56, if_neg h56]

/-- C17 at the fresh state, where one block is compressed. -/
theorem padding_minimal_witness :
    digest.zero.Reset.nx = ((0 : Nat) : Int) ∧ digest.zero.Reset.len % 64 = 0 ∧
    (padding digest.zero.Reset.len).length + (lenBytes digest.zero.Reset.len).length
      = (if 0 < 56 then 64 - 0 else 128 - 0) ∧
    9 ≤ (padding digest.zero.Reset.len).length + (lenBytes digest.zero.Reset.len).length ∧
    (padding digest.zero.Reset.len).length + (lenBytes digest.zero.Reset.len).length ≤ 72 ∧
    (digest.zero.Reset.len + ((padding digest.zero.Reset.len).length
      + (lenBytes digest.zero.Reset.len).length)) % 64 = 0 ∧
    digest.zero.Reset.len + 9 ≤ digest.zero.Reset.len
      + ((padding digest.zero.Reset.len).length + (lenBytes digest.zero.Reset.len).length) ∧
    (∀ m, m % 64 = 0 → digest.zero.Reset.len + 9 ≤ m →
      digest.zero.Reset.len + ((padding digest.zero.Reset.len).length
        + (lenBytes digest.zero.Reset.len).length) ≤ m) ∧
    ∃ r1 r2, digest.zero.Reset.Write (padding digest.zero.Reset.len) = some r1 ∧
      r1.d.Write (lenBytes digest.zero.Reset.len) = some r2 ∧
      r1.nn + r2.nn = (((padding digest.zero.Reset.len).length
        + (lenBytes digest.zero.Reset.len).length : Nat) : Int) ∧
      digest.zero.Reset.checkSum = some (r2.d, digestBytes r2.d.h) ∧
      r2.d.h = blockN (if 0 < 56 then 1 else 2) digest.zero.Reset.h
        (digest.zero.Reset.x.val.take 0 ++ padding digest.zero.Reset.len
          ++ lenBytes digest.zero.Reset.len) :=
  ⟨by decide, by decide, padding_minimal digest.zero.Reset 0 (by decide) (by decide)⟩

/-! ## Stale bytes, the empty write and the method `Sum` -/

theorem writeRest_take (d : digest) (p : List Nat) (hp : p.length % 64 ≠ 0) :
    (writeRest d p).x.val.take (p.length % 64) = p.drop (64 * (p.length / 64)) := by
  rw [(writeRest_rem_pos d p hp).2]
  have hl : (List.drop (64 * (p.length / 64)) p).length = p.length % 64 := by
    rw [List.length_drop]; omega
  rw [← hl, List.take_left]

theorem Write_view (a b : digest) (p : List Nat) (hv : ViewEq a b) (hlt : a.nx < 64) :
    ∃ ra rb, a.Write p = some ra ∧ b.Write p = some rb ∧ ViewEq ra.d rb.d ∧
      ra.d.nx < 64 ∧ ra.nn = rb.nn ∧ ra.err = rb.err := by
  obtain ⟨hh, hnx, hlen, hpre⟩ := hv
  by_cases hneg : a.nx < 0
  · have hb : b.nx < 0 := by omega
    refine ⟨_, _, Write_of_nx_nonpos a p (by omega), Write_of_nx_nonpos b p (by omega), ?_, ?_,
      rfl, rfl⟩
    · refine ⟨?_, ?_, ?_, ?_⟩
      · rw [writeRest_h, writeRest_h]; show blockN _ a.h p = blockN _ b.h p; rw [hh]
      · by_cases hp : p.length % 64 = 0
        · rw [(writeRest_rem_zero _ p hp).1, (writeRest_rem_zero _ p hp).1]; exact hnx
        · rw [(writeRest_rem_pos _ p hp).1, (writeRest_rem_pos _ p hp).1]
      · rw [writeRest_len, writeRest_len]; show _ % _ = _ % _; rw [hlen]
      · by_cases hp : p.length % 64 = 0
        · rw [(writeRest_rem_zero _ p hp).1, (writeRest_rem_zero _ p hp).1]
          show List.take a.nx.toNat _ = List.take b.nx.toNat _
          have ha0 : a.nx.toNat = 0 := by omega
          have hb0 : b.nx.toNat = 0 := by omega
          rw [ha0, hb0, List.take_zero, List.take_zero]
        · rw [(writeRest_rem_pos _ p hp).1, (writeRest_rem_pos _ p hp).1, Int.toNat_ofNat,
            writeRest_take _ p hp, writeRest_take _ p hp]
    · by_cases hp : p.length % 64 = 0
      · rw [(writeRest_rem_zero _ p hp).1]; exact hlt
      · rw [(writeRest_rem_pos _ p hp).1]; omega
  · obtain ⟨k, hk⟩ : ∃ k : Nat, a.nx = (k : Int) := ⟨a.nx.toNat, by omega⟩
    have hkb : b.nx = (k : Int) := by omega
    obtain ⟨ra, ea, enna, eerra, elena, enxa, eha, exa⟩ := Write_spec a p k hk (by omega)
    obtain ⟨rb, eb, ennb, eerrb, elenb, enxb, ehb, exb⟩ := Write_spec b p k hkb (by omega)
    rw [hk, Int.toNat_ofNat] at hpre
    rw [hkb, Int.toNat_ofNat] at hpre
    refine ⟨ra, rb, ea, eb, ⟨?_, ?_, ?_, ?_⟩, ?_, ?_, ?_⟩
    · rw [eha, ehb, hh, hpre]
    · rw [enxa, enxb]
    · rw [elena, elenb, hlen]
    · rw [enxa, enxb, Int.toNat_ofNat, exa, exb, hpre]
    · rw [enxa]; omega
    · rw [enna, ennb]
    · rw [eerra, eerrb]

theorem checkSum_unfold (d : digest) (r1 r2 : WriteResult)
    (e1 : d.Write (padding d.len) = some r1) (e2 : r1.d.Write (lenBytes d.len) = some r2) :
    d.checkSum = if r2.d.nx ≠ 0 then none else some (r2.d, digestBytes r2.d.h) := by
  unfold digest.checkSum
  dsimp only
  rw [e1]
  dsimp only
  rw [e2]

theorem checkSum_view (a b : digest) (hv : ViewEq a b) (hlt : a.nx < 64) :
    a.checkSum.map Prod.snd = b.checkSum.map Prod.snd := by
  have hlen : a.len = b.len := hv.2.2.1
  obtain ⟨r1a, r1b, e1a, e1b, hv1, hlt1, _, _⟩ := Write_view a b (padding a.len) hv hlt
  obtain ⟨r2a, r2b, e2a, e2b, hv2, _, _, _⟩ := Write_view r1a.d r1b.d (lenBytes a.len) hv1 hlt1
  rw [hlen] at e1b e2b
  rw [checkSum_unfold a r1a r2a e1a e2a, checkSum_unfold b r1b r2b e1b e2b]
  obtain ⟨hh2, hnx2, _, _⟩ := hv2
  by_cases hz : r2a.d.nx ≠ 0
  · rw [if_pos hz, if_pos (by rw [← hnx2]; exact hz)]
  · rw [if_neg hz, if_neg (by rw [← hnx2]; exact hz)]
    show some (digestBytes r2a.d.h) = some (digestBytes r2b.d.h)
    rw [hh2]

/-- C18: stale buffer bytes never influence the result.  For two states that
agree on `h`, `nx`, `len` and the valid prefix `x[0:nx]`, with `nx < 64`, and for
every `p`, `Write p` returns for both with states that agree again on `h`, `nx`,
`len` and the valid prefix, and `checkSum` has the same outcome for both, before
and after the write: the same digest, which it does return when
`nx = len mod 64`. -/
theorem stale_bytes_irrelevant (a b : digest) (p : List Nat) (hh : a.h = b.h)
    (hnx : a.nx = b.nx) (hlen : a.len = b.len) (hlt : a.nx < 64)
    (hpre : a.x.val.take a.nx.toNat = b.x.val.take b.nx.toNat) :
    (∃ ra rb, a.Write p = some ra ∧ b.Write p = some rb ∧
      ra.d.h = rb.d.h ∧ ra.d.nx = rb.d.nx ∧ ra.d.len = rb.d.len ∧
      ra.d.x.val.take ra.d.nx.toNat = rb.d.x.val.take rb.d.nx.toNat ∧
      ra.d.nx < 64 ∧ ra.nn = rb.nn ∧
      ra.d.checkSum.map Prod.snd = rb.d.checkSum.map Prod.snd) ∧
    a.checkSum.map Prod.snd = b.checkSum.map Prod.snd ∧
    (a.nx = ((a.len % 64 : Nat) : Int) →
      ∃ dg, a.checkSum.map Prod.snd = some dg ∧ b.checkSum.map Prod.snd = some dg) := by
  have hv : ViewEq a b := ⟨hh, hnx, hlen, hpre⟩
  have hcs := checkSum_view a b hv hlt
  refine ⟨?_, hcs, ?_⟩
  · obtain ⟨ra, rb, ea, eb, hv', hlt', hnn, _⟩ := Write_view a b p hv hlt
    exact ⟨ra, rb, ea, eb, hv'.1, hv'.2.1, hv'.2.2.1, hv'.2.2.2, hlt', hnn,
      checkSum_view ra.d rb.d hv' hlt'⟩
  · intro hinv
    have hr := Rep_of_bounds a (a.len % 64) hinv (Nat.mod_lt _ (by decide))
    have hl : (a.x.val.take (a.len % 64)).length = a.len % 64 := by
      rw [List.length_take, a.x.property]; unfold chunk; omega
    obtain ⟨d', ec, _⟩ := checkSum_ok a.h _ a hr (by rw [hl]; omega)
    refine ⟨_, by rw [ec]; rfl, ?_⟩
    rw [← hcs, ec]; rfl

/-- C18 at two states with 60 valid bytes that differ in the four cells past
them, and a write of three bytes. -/
theorem stale_bytes_irrelevant_witness :
    (stateNx60.h = stateNx60Stale.h ∧ stateNx60.nx = stateNx60Stale.nx ∧
     stateNx60.len = stateNx60Stale.len ∧ stateNx60.nx < 64 ∧
     stateNx60.x.val.take stateNx60.nx.toNat
       = stateNx60Stale.x.val.take stateNx60Stale.nx.toNat ∧
     stateNx60.x ≠ stateNx60Stale.x) ∧
    (∃ ra rb, stateNx60.Write [1, 2, 3] = some ra ∧ stateNx60Stale.Write [1, 2, 3] = some rb ∧
      ra.d.h = rb.d.h ∧ ra.d.nx = rb.d.nx ∧ ra.d.len = rb.d.len ∧
      ra.d.x.val.take ra.d.nx.toNat = rb.d.x.val.take rb.d.nx.toNat ∧
      ra.d.nx < 64 ∧ ra.nn = rb.nn ∧
      ra.d.checkSum.map Prod.snd = rb.d.checkSum.map Prod.snd) ∧
    stateNx60.checkSum.map Prod.snd = stateNx60Stale.checkSum.map Prod.snd ∧
    (stateNx60.nx = ((stateNx60.len % 64 : Nat) : Int) →
      ∃ dg, stateNx60.checkSum.map Prod.snd = some dg ∧
        stateNx60Stale.checkSum.map Prod.snd = some dg) :=
  ⟨⟨by decide, by decide, by decide, by decide, by decide, by decide⟩,
    stale_bytes_irrelevant stateNx60 stateNx60Stale [1, 2, 3] (by decide) (by decide)
      (by decide) (by decide) (by decide)⟩

theorem writeRest_nil (d : digest) : writeRest d [] = d := by
  unfold writeRest
  have h1 : ¬ (([] : List Nat).length ≥ chunk) := by decide
  have h2 : ¬ (([] : List Nat).length > 0) := by decide
  simp only [h1, if_false, h2]

theorem copyAt_nil (x : Buf) (k : Nat) : (copyAt x k []).1 = x := by
  apply Subtype.ext
  rw [copyAt_fst]
  simp

/-- C19: writing nothing changes nothing.  For every state with `nx < 64`,
`Write` of the empty byte sequence returns 0 with a nil error and leaves `h`,
`x`, `nx` and `len` unchanged. -/
theorem Write_nil (d : digest) (hnx : d.nx < 64) (hlen : d.len < 2 ^ 64) :
    ∃ r, d.Write [] = some r ∧ r.nn = 0 ∧ r.err = none ∧
      r.d.h = d.h ∧ r.d.x = d.x ∧ r.d.nx = d.nx ∧ r.d.len = d.len ∧ r.d = d := by
  have hl : (d.len + ([] : List Nat).length) % 2 ^ 64 = d.len := by
    rw [List.length_nil, Nat.add_zero, Nat.mod_eq_of_lt hlen]
  by_cases h0 : d.nx ≤ 0
  · have e := Write_of_nx_nonpos d [] h0
    rw [writeRest_nil, hl] at e
    exact ⟨_, e, rfl, rfl, rfl, rfl, rfl, rfl, rfl⟩
  · obtain ⟨k, hk⟩ : ∃ k : Nat, d.nx = (k : Int) := ⟨d.nx.toNat, by omega⟩
    have e := Write_short d [] k hk (by omega) (by rw [List.length_nil]; omega)
    rw [hl, copyAt_nil, List.length_nil, Nat.add_zero, ← hk] at e
    exact ⟨_, e, rfl, rfl, rfl, rfl, rfl, rfl, rfl⟩

/-- C19 at a state with 60 buffered bytes. -/
theorem Write_nil_witness :
    stateNx60.nx < 64 ∧ stateNx60.len < 2 ^ 64 ∧
    ∃ r, stateNx60.Write [] = some r ∧ r.nn = 0 ∧ r.err = none ∧
      r.d.h = stateNx60.h ∧ r.d.x = stateNx60.x ∧ r.d.nx = stateNx60.nx ∧
      r.d.len = stateNx60.len ∧ r.d = stateNx60 :=
  ⟨by decide, by decide, Write_nil stateNx60 (by decide) (by decide)⟩

/-- C20: for every state on which `checkSum` returns and every byte sequence
`b`, the method `Sum` returns `b` followed by the 20 bytes of `checkSum` on a
copy of the state: the result has length `len b + 20` and starts with `b`. -/
theorem digest_Sum_appends (d0 : digest) (b : List Nat) (c : digest × List Nat)
    (e : d0.checkSum = some c) :
    ∃ r, d0.Sum b = some r ∧ r.1 = d0 ∧ r.2 = b ++ c.2 ∧ c.2.length = Size ∧ Size = 20 ∧
      r.2.length = b.length + 20 ∧ r.2.take b.length = b ∧ r.2.drop b.length = c.2 := by
  have hc : c.2.length = 20 := by
    rw [(checkSum_of_some d0 c e).1, digestBytes_list]; rfl
  refine ⟨(d0, b ++ c.2), digest_Sum_of_checkSum d0 b c e, rfl, rfl, hc, rfl, ?_, ?_, ?_⟩
  · show (b ++ c.2).length = _
    rw [List.length_append, hc]
  · exact List.take_left _ _
  · exact List.drop_left _ _

set_option maxRecDepth 1000000 in
/-- C20 at the fresh state and three bytes to append to. -/
theorem digest_Sum_appends_witness :
    digest.zero.Reset.checkSum = some emptyFinal ∧
    ∃ r, digest.zero.Reset.Sum [1, 2, 3] = some r ∧ r.1 = digest.zero.Reset ∧
      r.2 = [1, 2, 3] ++ emptyFinal.2 ∧ emptyFinal.2.length = Size ∧ Size = 20 ∧
      r.2.length = ([1, 2, 3] : List Nat).length + 20 ∧
      r.2.take ([1, 2, 3] : List Nat).length = [1, 2, 3] ∧
      r.2.drop ([1, 2, 3] : List Nat).length = emptyFinal.2 :=
  ⟨by decide, digest_Sum_appends digest.zero.Reset [1, 2, 3] emptyFinal (by decide)⟩

end sha1
